import Mathlib

/-!
Verification of the lseq repository (an LSEQ-style replicated ordered sequence).

The Rust sources `src/key.rs` and `src/document.rs` are shallowly embedded
below.  Randomness (the thread-local RNG used by `pick`) is modelled by two
explicit oracle parameters: `sc : Nat → InsertionStrategy` gives the strategy
pushed for each newly assigned table index, and `pc : Nat` determines the one
`gen_range(left, right)` draw of a `pick` call, modelled as
`left + pc % (right - left)` so that every oracle value yields an in-range
result and every in-range result is reachable.  Rust `usize` arithmetic here
never overflows (indices only grow by small increments from tiny bases), so
machine integers are modelled as `Nat`.  Panics (failed `assert!`) and the
one unreachable infinite-descent branch are modelled as `Option.none`.
-/

namespace LSeq

open Batteries

/-- Constant `INITIAL_WIDTH` from `src/key.rs`. -/
def INITIAL_WIDTH : Nat := 5

/-- Constant `STEP` from `src/key.rs`. -/
def STEP : Nat := 2

/-- Enum `Id<SiteId>` from `src/key.rs`: the origin tag of a path segment. -/
inductive Id (α : Type) where
  | Sentinel : Id α
  | Site : α → Id α
deriving DecidableEq

/-- Derived `Ord` on `Id<SiteId>`: variant order first (`Sentinel` before
`Site`), then the payload comparison. -/
def Id.cmp [LinearOrder α] : Id α → Id α → Ordering
  | .Sentinel, .Sentinel => .eq
  | .Sentinel, .Site _ => .lt
  | .Site _, .Sentinel => .gt
  | .Site a, .Site b => compare a b

/-- Struct `Key<SiteId>` from `src/key.rs`: a path of `(index, origin)`
segments plus a clock that ordering and equality ignore. -/
structure Key (α : Type) where
  position : List (Nat × Id α)
  clock : Nat
deriving DecidableEq

/-- Comparison of one path segment: index first, then origin, as in
`left.0.cmp(&right.0).then_with(|| left.1.cmp(&right.1))`. -/
def segCmp [LinearOrder α] (a b : Nat × Id α) : Ordering :=
  (compare a.1 b.1).then (Id.cmp a.2 b.2)

/-- Comparison of the exhausted left side against the remaining right path:
the left iterator keeps yielding the `(0, Sentinel)` padding. -/
def posCmpNil [LinearOrder α] : List (Nat × Id α) → Ordering
  | [] => .eq
  | r :: rs =>
    match segCmp (0, Id.Sentinel) r with
    | .eq => posCmpNil rs
    | o => o

/-- Lexicographic comparison of two paths, the loop in `impl Ord for Key`:
the shorter side is padded with `(0, Sentinel)`; once both paths are
exhausted the result is `Equal`. -/
def posCmp [LinearOrder α] : List (Nat × Id α) → List (Nat × Id α) → Ordering
  | [], rs => posCmpNil rs
  | l :: ls, [] =>
    match segCmp l (0, Id.Sentinel) with
    | .eq => posCmp ls []
    | o => o
  | l :: ls, r :: rs =>
    match segCmp l r with
    | .eq => posCmp ls rs
    | o => o

/-- Method `Key::cmp` from `src/key.rs` (clock is not consulted). -/
def Key.cmp [LinearOrder α] (a b : Key α) : Ordering :=
  posCmp a.position b.position

/-- The strict order `*a < *b` on keys used by the Rust asserts. -/
def keyLt [LinearOrder α] (a b : Key α) : Prop :=
  Key.cmp a b = .lt

instance [LinearOrder α] (a b : Key α) : Decidable (keyLt a b) := by
  unfold keyLt; infer_instance

/-- Enum `InsertionStrategy` from `src/key.rs`. -/
inductive InsertionStrategy where
  | Front : InsertionStrategy
  | Back : InsertionStrategy
deriving DecidableEq

section OrderLemmas

variable {α : Type} [LinearOrder α]

instance : OrientedCmp (Id.cmp (α := α)) where
  symm x y := by
    cases x <;> cases y <;> simp [Id.cmp, Ordering.swap]
    exact OrientedCmp.symm ..

instance : TransCmp (Id.cmp (α := α)) where
  le_trans {x y z} h1 h2 := by
    cases x <;> cases y <;> cases z <;> simp_all [Id.cmp]
    exact TransCmp.le_trans (α := α) h1 h2

theorem Id.cmp_eq_iff {x y : Id α} : Id.cmp x y = .eq ↔ x = y := by
  cases x <;> cases y <;> simp [Id.cmp, compare_eq_iff_eq]

theorem segCmp_eq_compareLex :
    segCmp (α := α) =
      compareLex (Ordering.byKey Prod.fst compare) (Ordering.byKey Prod.snd Id.cmp) := rfl

instance : OrientedCmp (segCmp (α := α)) := by
  rw [segCmp_eq_compareLex]; infer_instance

instance : TransCmp (segCmp (α := α)) := by
  rw [segCmp_eq_compareLex]; infer_instance

theorem segCmp_eq_iff {x y : Nat × Id α} : segCmp x y = .eq ↔ x = y := by
  simp [segCmp, Ordering.then_eq_eq, compare_eq_iff_eq, Id.cmp_eq_iff, Prod.ext_iff]

theorem segCmp_refl (x : Nat × Id α) : segCmp x x = .eq :=
  segCmp_eq_iff.mpr rfl

/-- The `(0, Sentinel)` padding segment. -/
def padSeg {α : Type} : Nat × Id α := (0, Id.Sentinel)

theorem segCmp_padSeg_ne_gt {x : Nat × Id α} : segCmp padSeg x ≠ .gt := by
  obtain ⟨i, b⟩ := x
  cases hc : compare (0 : Nat) i with
  | gt => exact absurd (compare_gt_iff_gt.mp hc) (Nat.not_lt_zero _)
  | lt => simp [segCmp, padSeg, hc, Ordering.then]
  | eq =>
    simp only [segCmp, padSeg, hc, Ordering.then]
    cases b <;> simp [Id.cmp]

theorem segCmp_padSeg_refl : segCmp (padSeg (α := α)) padSeg = .eq :=
  segCmp_eq_iff.mpr rfl

theorem posCmp_nil_nil : posCmp (α := α) [] [] = .eq := rfl

theorem posCmp_cons_cons {x y : Nat × Id α} {xs ys : List (Nat × Id α)} :
    posCmp (x :: xs) (y :: ys) = (segCmp x y).then (posCmp xs ys) := by
  cases h : segCmp x y <;> simp [posCmp, h, Ordering.then]

theorem posCmp_nil_cons {y : Nat × Id α} {ys : List (Nat × Id α)} :
    posCmp [] (y :: ys) = (segCmp padSeg y).then (posCmp [] ys) := by
  have hp : segCmp (padSeg (α := α)) y = segCmp (0, Id.Sentinel) y := rfl
  cases h : segCmp (padSeg (α := α)) y <;> rw [hp] at h <;>
    simp [posCmp, posCmpNil, h, hp, Ordering.then]

theorem posCmp_cons_nil {x : Nat × Id α} {xs : List (Nat × Id α)} :
    posCmp (x :: xs) [] = (segCmp x padSeg).then (posCmp xs []) := by
  have hp : segCmp x (padSeg (α := α)) = segCmp x (0, Id.Sentinel) := rfl
  cases h : segCmp x (padSeg (α := α)) <;> rw [hp] at h <;>
    simp [posCmp, h, hp, Ordering.then]

/-- Uniform unfolding of `posCmp`: one comparison step on the padded heads,
then the tails.  This also holds (propositionally) for two empty lists. -/
theorem posCmp_unfold (xs ys : List (Nat × Id α)) :
    posCmp xs ys =
      (segCmp (xs.headD padSeg) (ys.headD padSeg)).then (posCmp xs.tail ys.tail) := by
  cases xs with
  | nil =>
    cases ys with
    | nil => simp [posCmp_nil_nil, segCmp_padSeg_refl, Ordering.then]
    | cons y ys => exact posCmp_nil_cons
  | cons x xs =>
    cases ys with
    | nil => exact posCmp_cons_nil
    | cons y ys => exact posCmp_cons_cons

theorem length_tail_le {β : Type} (xs : List β) : xs.tail.length = xs.length - 1 := by
  cases xs <;> simp

theorem one_le_length_of_not_nil {β : Type} {xs ys : List β}
    (h : ¬(xs = [] ∧ ys = [])) : 1 ≤ xs.length + ys.length := by
  cases xs with
  | cons a l => simp only [List.length_cons]; omega
  | nil =>
    cases ys with
    | cons a l => simp only [List.length_cons]; omega
    | nil => exact absurd ⟨rfl, rfl⟩ h

theorem posCmp_swap_aux :
    ∀ (n : Nat) (xs ys : List (Nat × Id α)), xs.length + ys.length ≤ n →
      (posCmp xs ys).swap = posCmp ys xs := by
  intro n
  induction n with
  | zero =>
    intro xs ys hlen
    have hx : xs = [] := List.length_eq_zero.mp (by omega)
    have hy : ys = [] := List.length_eq_zero.mp (by omega)
    subst hx; subst hy
    rw [posCmp_nil_nil]; rfl
  | succ n ih =>
    intro xs ys hlen
    by_cases hne : xs = [] ∧ ys = []
    · obtain ⟨rfl, rfl⟩ := hne
      rw [posCmp_nil_nil]; rfl
    · rw [posCmp_unfold xs ys, posCmp_unfold ys xs, Ordering.swap_then,
        OrientedCmp.symm (xs.headD padSeg) (ys.headD padSeg)]
      congr 1
      apply ih
      have := one_le_length_of_not_nil hne
      rw [length_tail_le, length_tail_le]
      omega

instance : OrientedCmp (posCmp (α := α)) where
  symm xs ys := posCmp_swap_aux (xs.length + ys.length) xs ys le_rfl

theorem posCmp_le_trans_aux :
    ∀ (n : Nat) (xs ys zs : List (Nat × Id α)),
      xs.length + ys.length + zs.length ≤ n →
      posCmp xs ys ≠ .gt → posCmp ys zs ≠ .gt → posCmp xs zs ≠ .gt := by
  intro n
  induction n with
  | zero =>
    intro xs ys zs hlen _ _
    have hx : xs = [] := List.length_eq_zero.mp (by omega)
    have hz : zs = [] := List.length_eq_zero.mp (by omega)
    subst hx; subst hz
    rw [posCmp_nil_nil]; exact fun h => Ordering.noConfusion h
  | succ n ih =>
    intro xs ys zs hlen h1 h2
    by_cases hne : xs = [] ∧ zs = []
    · obtain ⟨rfl, rfl⟩ := hne
      rw [posCmp_nil_nil]; exact fun h => Ordering.noConfusion h
    · rw [posCmp_unfold xs ys] at h1
      rw [posCmp_unfold ys zs] at h2
      rw [posCmp_unfold xs zs]
      simp only [ne_eq, Ordering.then_eq_gt, not_or, not_and] at h1 h2 ⊢
      refine ⟨TransCmp.le_trans h1.1 h2.1, fun exz => ?_⟩
      match hxy : segCmp (xs.headD padSeg) (ys.headD padSeg) with
      | .gt => exact absurd hxy h1.1
      | .lt =>
        exact absurd ((OrientedCmp.cmp_eq_gt).mpr
          (TransCmp.cmp_congr_left exz ▸ hxy)) h2.1
      | .eq =>
        have hyz : segCmp (ys.headD padSeg) (zs.headD padSeg) = .eq := by
          rw [← TransCmp.cmp_congr_left hxy]; exact exz
        have hlen2 : xs.tail.length + ys.tail.length + zs.tail.length ≤ n := by
          have := one_le_length_of_not_nil hne
          rw [length_tail_le, length_tail_le, length_tail_le]
          have : ys.tail.length ≤ ys.length := by rw [length_tail_le]; omega
          omega
        exact ih xs.tail ys.tail zs.tail hlen2 (h1.2 hxy) (h2.2 hyz)

instance : TransCmp (posCmp (α := α)) where
  le_trans {xs ys zs} h1 h2 :=
    posCmp_le_trans_aux (xs.length + ys.length + zs.length) xs ys zs le_rfl h1 h2

/-- Segment of a path at depth `i`, padded with `(0, Sentinel)` beyond the
end of the path, exactly as the comparison loop reads it. -/
def padGet (xs : List (Nat × Id α)) (i : Nat) : Nat × Id α :=
  xs.getD i padSeg

theorem padGet_zero {xs : List (Nat × Id α)} : padGet xs 0 = xs.headD padSeg := by
  cases xs <;> rfl

theorem padGet_succ {xs : List (Nat × Id α)} {i : Nat} :
    padGet xs (i + 1) = padGet xs.tail i := by
  cases xs <;> rfl

theorem posCmp_eq_iff_aux :
    ∀ (n : Nat) (xs ys : List (Nat × Id α)), xs.length + ys.length ≤ n →
      (posCmp xs ys = .eq ↔ ∀ i, padGet xs i = padGet ys i) := by
  intro n
  induction n with
  | zero =>
    intro xs ys hlen
    have hx : xs = [] := List.length_eq_zero.mp (by omega)
    have hy : ys = [] := List.length_eq_zero.mp (by omega)
    subst hx; subst hy
    simp [posCmp_nil_nil, padGet]
  | succ n ih =>
    intro xs ys hlen
    by_cases hne : xs = [] ∧ ys = []
    · obtain ⟨rfl, rfl⟩ := hne
      simp [posCmp_nil_nil, padGet]
    · have hlen2 : xs.tail.length + ys.tail.length ≤ n := by
        have := one_le_length_of_not_nil hne
        rw [length_tail_le, length_tail_le]; omega
      rw [posCmp_unfold, Ordering.then_eq_eq, segCmp_eq_iff, ih xs.tail ys.tail hlen2]
      constructor
      · rintro ⟨hh, ht⟩ i
        cases i with
        | zero => rw [padGet_zero, padGet_zero, hh]
        | succ j => rw [padGet_succ, padGet_succ]; exact ht j
      · intro h
        refine ⟨?_, fun j => ?_⟩
        · have h0 := h 0
          rwa [padGet_zero, padGet_zero] at h0
        · have hj := h (j + 1)
          rwa [padGet_succ, padGet_succ] at hj

/-- `posCmp` returns `Equal` exactly when the two paths agree pointwise after
padding with `(0, Sentinel)` — not when they are equal as lists. -/
theorem posCmp_eq_iff {xs ys : List (Nat × Id α)} :
    posCmp xs ys = .eq ↔ ∀ i, padGet xs i = padGet ys i :=
  posCmp_eq_iff_aux (xs.length + ys.length) xs ys le_rfl

theorem posCmp_refl (xs : List (Nat × Id α)) : posCmp xs xs = .eq :=
  posCmp_eq_iff.mpr (fun i => rfl)

theorem posCmp_nil_ne_gt {ys : List (Nat × Id α)} : posCmp [] ys ≠ .gt := by
  induction ys with
  | nil => rw [posCmp_nil_nil]; exact fun h => Ordering.noConfusion h
  | cons y ys ih =>
    rw [posCmp_nil_cons]
    simp only [ne_eq, Ordering.then_eq_gt, not_or, not_and]
    exact ⟨segCmp_padSeg_ne_gt, fun _ => ih⟩

theorem posCmp_ne_lt_nil {xs : List (Nat × Id α)} : posCmp xs [] ≠ .lt :=
  fun h => posCmp_nil_ne_gt (OrientedCmp.cmp_eq_gt.mpr h)

end OrderLemmas

section Pick

variable {α : Type} [LinearOrder α]

/-- Function `width` from `src/key.rs`: the virtual index range of a level. -/
def width (level : Nat) : Nat := INITIAL_WIDTH * 2 ^ level

/-- Model of `rng.gen_range(l, r)`: an arbitrary in-range value determined by
the oracle `pc`.  For `l < r` every value of `[l, r)` is reachable. -/
def genRange (pc l r : Nat) : Nat := l + pc % (r - l)

/-- Function `pick_position` from `src/key.rs` (named `pick_index` in the
older `src/lib.rs`): draw inside a `STEP`-wide window at the edge of the gap
selected by the strategy.  `saturating_add`/`saturating_sub` on `usize`
become plain `Nat` `+`/`-` (truncated subtraction). -/
def pick_position (pc : Nat) (left right : Nat) (strategy : InsertionStrategy) : Nat :=
  match strategy with
  | .Front => genRange pc left (min (left + STEP) right)
  | .Back => genRange pc (max (right - STEP) left) right

/-- Function `get_strategy` from `src/key.rs`: the `for _ in len..=level`
extension loop, pushing one oracle-chosen strategy per new index. -/
def extendStrategies (sc : Nat → InsertionStrategy) (strategies : List InsertionStrategy)
    (level : Nat) : List InsertionStrategy :=
  strategies ++ (List.range (level + 1 - strategies.length)).map
    (fun i => sc (strategies.length + i))

/-- Function `get_strategy` from `src/key.rs`: extend the table up to `level`
if needed, then read `strategies[level]`. -/
def get_strategy (sc : Nat → InsertionStrategy) (strategies : List InsertionStrategy)
    (level : Nat) : InsertionStrategy × List InsertionStrategy :=
  let s := extendStrategies sc strategies level
  (s.getD level .Front, s)

/-- One iteration of the `loop` in `Key::pick`: `some (pos, strategies)` when
the loop breaks at this level (room, or the adjacent tie-break), `none` when
it pushes the left segment and descends. -/
def pickStep (site : Id α) (sc : Nat → InsertionStrategy) (pc : Nat) (level : Nat)
    (strategies : List InsertionStrategy) (lpos : Nat) (lid : Id α) (rpos : Nat) :
    Option (Nat × List InsertionStrategy) :=
  if lpos + 1 < rpos then
    let gs := get_strategy sc strategies level
    some (pick_position pc (lpos + 1) rpos gs.1, gs.2)
  else if lpos + 1 = rpos ∧ Id.cmp lid site = .lt then
    some (lpos, strategies)
  else none

/-- The level-descent `loop` of `Key::pick`.  The left iterator defaults to
`(0, Sentinel)` and the right iterator to `(width(level), Sentinel)` when
exhausted.  The loop itself has no bound; it is modelled with a fuel
parameter (structural recursion), `none` marking fuel exhaustion, i.e.
non-termination.  `pickLoop_isSome` proves that fuel exceeding the total
length of the two paths always suffices, because once both iterators are
exhausted the step finds room (`1 < width level`). -/
def pickLoop (site : Id α) (sc : Nat → InsertionStrategy) (pc : Nat) :
    Nat → Nat → List InsertionStrategy → List (Nat × Id α) → List (Nat × Id α) →
      Option (List (Nat × Id α) × List InsertionStrategy)
  | 0, _, _, _, _ => none
  | fuel + 1, level, strategies, [], [] =>
    match pickStep site sc pc level strategies 0 Id.Sentinel (width level) with
    | some (pos, s2) => some ([(pos, site)], s2)
    | none =>
      (pickLoop site sc pc fuel (level + 1) strategies [] []).map
        (fun ps => ((0, Id.Sentinel) :: ps.1, ps.2))
  | fuel + 1, level, strategies, [], r :: rs =>
    match pickStep site sc pc level strategies 0 Id.Sentinel r.1 with
    | some (pos, s2) => some ([(pos, site)], s2)
    | none =>
      (pickLoop site sc pc fuel (level + 1) strategies [] rs).map
        (fun ps => ((0, Id.Sentinel) :: ps.1, ps.2))
  | fuel + 1, level, strategies, l :: ls, [] =>
    match pickStep site sc pc level strategies l.1 l.2 (width level) with
    | some (pos, s2) => some ([(pos, site)], s2)
    | none =>
      (pickLoop site sc pc fuel (level + 1) strategies ls []).map
        (fun ps => (l :: ps.1, ps.2))
  | fuel + 1, level, strategies, l :: ls, r :: rs =>
    match pickStep site sc pc level strategies l.1 l.2 r.1 with
    | some (pos, s2) => some ([(pos, site)], s2)
    | none =>
      (pickLoop site sc pc fuel (level + 1) strategies ls rs).map
        (fun ps => (l :: ps.1, ps.2))

/-- Method `Key::pick` from `src/key.rs`.  The entry `assert!(*self < *other)`
is modelled as a guard; the result carries the new key (whose clock is the
passed `clock`) together with the updated strategy table.  The fuel
`|self| + |other| + 1` is sufficient (`pickLoop_isSome`), so `none` can only
arise from unordered bounds. -/
def Key.pick (self other : Key α) (site : Id α) (clock : Nat)
    (strategies : List InsertionStrategy) (sc : Nat → InsertionStrategy) (pc : Nat) :
    Option (Key α × List InsertionStrategy) :=
  if keyLt self other then
    (pickLoop site sc pc (self.position.length + other.position.length + 1)
        0 strategies self.position other.position).map
      (fun ps => (⟨ps.1, clock⟩, ps.2))
  else none

theorem one_lt_width (level : Nat) : 1 < width level := by
  have h2 : 0 < 2 ^ level := pow_pos (by omega) level
  unfold width INITIAL_WIDTH
  omega

theorem genRange_bounds {l r : Nat} (h : l < r) (pc : Nat) :
    l ≤ genRange pc l r ∧ genRange pc l r < r := by
  unfold genRange
  have hmod : pc % (r - l) < r - l := Nat.mod_lt _ (by omega)
  omega

theorem pick_position_bounds {l r : Nat} (h : l < r) (pc : Nat) (st : InsertionStrategy) :
    l ≤ pick_position pc l r st ∧ pick_position pc l r st < r := by
  cases st with
  | Front =>
    have hlt : l < min (l + STEP) r := by unfold STEP; omega
    have hb := genRange_bounds hlt pc
    unfold pick_position
    exact ⟨hb.1, lt_of_lt_of_le hb.2 (min_le_right _ _)⟩
  | Back =>
    have hlt : max (r - STEP) l < r := by unfold STEP; omega
    have hb := genRange_bounds hlt pc
    unfold pick_position
    exact ⟨le_trans (le_max_right _ _) hb.1, hb.2⟩

theorem extendStrategies_of_lt {sc : Nat → InsertionStrategy}
    {strategies : List InsertionStrategy} {level : Nat} (h : level < strategies.length) :
    extendStrategies sc strategies level = strategies := by
  unfold extendStrategies
  have h0 : level + 1 - strategies.length = 0 := by omega
  simp [h0]

theorem extendStrategies_length {sc : Nat → InsertionStrategy}
    {strategies : List InsertionStrategy} {level : Nat} :
    (extendStrategies sc strategies level).length = max strategies.length (level + 1) := by
  unfold extendStrategies
  simp
  omega

theorem get_strategy_of_lt {sc : Nat → InsertionStrategy}
    {strategies : List InsertionStrategy} {level : Nat} (h : level < strategies.length) :
    get_strategy sc strategies level = (strategies.getD level .Front, strategies) := by
  unfold get_strategy
  rw [extendStrategies_of_lt h]

theorem pickStep_bounds {site : Id α} {sc : Nat → InsertionStrategy} {pc level : Nat}
    {strategies : List InsertionStrategy} {lpos : Nat} {lid : Id α} {rpos : Nat}
    {pos : Nat} {s2 : List InsertionStrategy}
    (h : pickStep site sc pc level strategies lpos lid rpos = some (pos, s2)) :
    (lpos + 1 ≤ pos ∧ pos < rpos) ∨
      (pos = lpos ∧ lpos + 1 = rpos ∧ Id.cmp lid site = .lt) := by
  unfold pickStep at h
  split at h
  · rename_i hroom
    have hb := pick_position_bounds hroom pc (get_strategy sc strategies level).1
    cases h
    exact Or.inl hb
  · split at h
    · rename_i htie
      cases h
      exact Or.inr ⟨rfl, htie.1, htie.2⟩
    · exact Option.noConfusion h

theorem pickStep_strategies {site : Id α} {sc : Nat → InsertionStrategy} {pc level : Nat}
    {strategies : List InsertionStrategy} {lpos : Nat} {lid : Id α} {rpos : Nat}
    {pos : Nat} {s2 : List InsertionStrategy}
    (h : pickStep site sc pc level strategies lpos lid rpos = some (pos, s2)) :
    ∃ t, s2 = strategies ++ t := by
  unfold pickStep at h
  split at h
  · cases h
    exact ⟨_, rfl⟩
  · split at h
    · cases h
      exact ⟨[], by simp⟩
    · exact Option.noConfusion h

theorem pickStep_none {site : Id α} {sc : Nat → InsertionStrategy} {pc level : Nat}
    {strategies : List InsertionStrategy} {lpos : Nat} {lid : Id α} {rpos : Nat}
    (h : pickStep site sc pc level strategies lpos lid rpos = none) :
    ¬ lpos + 1 < rpos ∧ ¬ (lpos + 1 = rpos ∧ Id.cmp lid site = .lt) := by
  unfold pickStep at h
  split at h
  · exact Option.noConfusion h
  · split at h
    · exact Option.noConfusion h
    · rename_i h1 h2
      exact ⟨h1, h2⟩

theorem pickStep_of_room {site : Id α} {sc : Nat → InsertionStrategy} {pc level : Nat}
    {strategies : List InsertionStrategy} {lpos : Nat} {lid : Id α} {rpos : Nat}
    (h : lpos + 1 < rpos) :
    pickStep site sc pc level strategies lpos lid rpos =
      some (pick_position pc (lpos + 1) rpos (get_strategy sc strategies level).1,
        (get_strategy sc strategies level).2) := by
  unfold pickStep
  rw [if_pos h]

theorem lt_then (o : Ordering) : Ordering.lt.then o = .lt := rfl

theorem eq_then (o : Ordering) : Ordering.eq.then o = o := rfl

theorem gt_then (o : Ordering) : Ordering.gt.then o = .gt := rfl

theorem segCmp_lt_of_index {a b : Nat × Id α} (h : a.1 < b.1) : segCmp a b = .lt := by
  unfold segCmp
  rw [compare_lt_iff_lt.mpr h, lt_then]

theorem segCmp_lt_of_id {a b : Nat × Id α} (h1 : a.1 = b.1)
    (h2 : Id.cmp a.2 b.2 = .lt) : segCmp a b = .lt := by
  unfold segCmp
  rw [compare_eq_iff_eq.mpr h1, eq_then, h2]

/-- The descent loop always breaks before the fuel runs out: once both
iterators are exhausted, the left default `(0, Sentinel)` and the right
default `width level ≥ 5` leave room (claim C5's termination argument). -/
theorem pickLoop_isSome (site : Id α) (sc : Nat → InsertionStrategy) (pc : Nat) :
    ∀ (fuel : Nat) (lhs rhs : List (Nat × Id α)) (level : Nat)
      (strategies : List InsertionStrategy),
      lhs.length + rhs.length < fuel →
      ∃ p s2, pickLoop site sc pc fuel level strategies lhs rhs = some (p, s2) := by
  intro fuel
  induction fuel with
  | zero =>
    intro lhs rhs level strategies hfuel
    exact absurd hfuel (Nat.not_lt_zero _)
  | succ fuel ih =>
    intro lhs rhs level strategies hfuel
    cases lhs with
    | nil =>
      cases rhs with
      | nil =>
        have hroom : 0 + 1 < width level := by have := one_lt_width level; omega
        simp only [pickLoop]
        rw [pickStep_of_room hroom]
        exact ⟨_, _, rfl⟩
      | cons r rs =>
        simp only [pickLoop]
        cases hstep : pickStep site sc pc level strategies 0 Id.Sentinel r.1 with
        | some pr => exact ⟨_, _, rfl⟩
        | none =>
          obtain ⟨p, s2, hp⟩ := ih [] rs (level + 1) strategies
            (by simp only [List.length_nil, List.length_cons] at hfuel ⊢; omega)
          rw [hp]
          exact ⟨_, _, rfl⟩
    | cons l ls =>
      cases rhs with
      | nil =>
        simp only [pickLoop]
        cases hstep : pickStep site sc pc level strategies l.1 l.2 (width level) with
        | some pr => exact ⟨_, _, rfl⟩
        | none =>
          obtain ⟨p, s2, hp⟩ := ih ls [] (level + 1) strategies
            (by simp only [List.length_nil, List.length_cons] at hfuel ⊢; omega)
          rw [hp]
          exact ⟨_, _, rfl⟩
      | cons r rs =>
        simp only [pickLoop]
        cases hstep : pickStep site sc pc level strategies l.1 l.2 r.1 with
        | some pr => exact ⟨_, _, rfl⟩
        | none =>
          obtain ⟨p, s2, hp⟩ := ih ls rs (level + 1) strategies
            (by simp only [List.length_cons] at hfuel ⊢; omega)
          rw [hp]
          exact ⟨_, _, rfl⟩

/-- The strategy table only ever grows: existing entries are never
rewritten, new entries are appended (claim C7). -/
theorem pickLoop_strategies (site : Id α) (sc : Nat → InsertionStrategy) (pc : Nat) :
    ∀ (fuel : Nat) (lhs rhs : List (Nat × Id α)) (level : Nat)
      (strategies : List InsertionStrategy) (p : List (Nat × Id α))
      (s2 : List InsertionStrategy),
      pickLoop site sc pc fuel level strategies lhs rhs = some (p, s2) →
      ∃ t, s2 = strategies ++ t := by
  intro fuel
  induction fuel with
  | zero =>
    intro lhs rhs level strategies p s2 hp
    simp only [pickLoop] at hp
    exact Option.noConfusion hp
  | succ fuel ih =>
    intro lhs rhs level strategies p s2 hp
    have hdescend : ∀ (l0 : Nat × Id α) (ls0 rs0 : List (Nat × Id α)),
        (pickLoop site sc pc fuel (level + 1) strategies ls0 rs0).map
            (fun ps => (l0 :: ps.1, ps.2)) = some (p, s2) →
        ∃ t, s2 = strategies ++ t := by
      intro l0 ls0 rs0 hm
      rw [Option.map_eq_some'] at hm
      obtain ⟨ps, hrec, hf⟩ := hm
      obtain ⟨h1, h2⟩ := Prod.ext_iff.mp hf
      subst h1; subst h2
      exact ih ls0 rs0 (level + 1) strategies ps.1 ps.2 hrec
    cases lhs with
    | nil =>
      cases rhs with
      | nil =>
        simp only [pickLoop] at hp
        split at hp
        · rename_i pos st2 hstep
          cases hp
          exact pickStep_strategies hstep
        · exact hdescend _ _ _ hp
      | cons r rs =>
        simp only [pickLoop] at hp
        split at hp
        · rename_i pos st2 hstep
          cases hp
          exact pickStep_strategies hstep
        · exact hdescend _ _ _ hp
    | cons l ls =>
      cases rhs with
      | nil =>
        simp only [pickLoop] at hp
        split at hp
        · rename_i pos st2 hstep
          cases hp
          exact pickStep_strategies hstep
        · exact hdescend _ _ _ hp
      | cons r rs =>
        simp only [pickLoop] at hp
        split at hp
        · rename_i pos st2 hstep
          cases hp
          exact pickStep_strategies hstep
        · exact hdescend _ _ _ hp

/-- The produced path always ends with a segment tagged by the requesting
site: `ret.push((pos, site_id))`. -/
theorem pickLoop_last (site : Id α) (sc : Nat → InsertionStrategy) (pc : Nat) :
    ∀ (fuel : Nat) (lhs rhs : List (Nat × Id α)) (level : Nat)
      (strategies : List InsertionStrategy) (p : List (Nat × Id α))
      (s2 : List InsertionStrategy),
      pickLoop site sc pc fuel level strategies lhs rhs = some (p, s2) →
      ∃ q pos, p = q ++ [(pos, site)] := by
  intro fuel
  induction fuel with
  | zero =>
    intro lhs rhs level strategies p s2 hp
    simp only [pickLoop] at hp
    exact Option.noConfusion hp
  | succ fuel ih =>
    intro lhs rhs level strategies p s2 hp
    have hdescend : ∀ (l0 : Nat × Id α) (ls0 rs0 : List (Nat × Id α)),
        (pickLoop site sc pc fuel (level + 1) strategies ls0 rs0).map
            (fun ps => (l0 :: ps.1, ps.2)) = some (p, s2) →
        ∃ q pos, p = q ++ [(pos, site)] := by
      intro l0 ls0 rs0 hm
      rw [Option.map_eq_some'] at hm
      obtain ⟨ps, hrec, hf⟩ := hm
      obtain ⟨h1, h2⟩ := Prod.ext_iff.mp hf
      subst h1; subst h2
      obtain ⟨q, pos, hq⟩ := ih ls0 rs0 (level + 1) strategies ps.1 ps.2 hrec
      exact ⟨l0 :: q, pos, by rw [hq]; rfl⟩
    cases lhs with
    | nil =>
      cases rhs with
      | nil =>
        simp only [pickLoop] at hp
        split at hp
        · rename_i pos st2 hstep
          cases hp
          exact ⟨[], pos, rfl⟩
        · exact hdescend _ _ _ hp
      | cons r rs =>
        simp only [pickLoop] at hp
        split at hp
        · rename_i pos st2 hstep
          cases hp
          exact ⟨[], pos, rfl⟩
        · exact hdescend _ _ _ hp
    | cons l ls =>
      cases rhs with
      | nil =>
        simp only [pickLoop] at hp
        split at hp
        · rename_i pos st2 hstep
          cases hp
          exact ⟨[], pos, rfl⟩
        · exact hdescend _ _ _ hp
      | cons r rs =>
        simp only [pickLoop] at hp
        split at hp
        · rename_i pos st2 hstep
          cases hp
          exact ⟨[], pos, rfl⟩
        · exact hdescend _ _ _ hp

/-- The produced path is strictly greater than the left bound, with no
hypothesis on the right bound. -/
theorem pickLoop_lt_left (site : Id α) (sc : Nat → InsertionStrategy) (pc : Nat) :
    ∀ (fuel : Nat) (lhs rhs : List (Nat × Id α)) (level : Nat)
      (strategies : List InsertionStrategy) (p : List (Nat × Id α))
      (s2 : List InsertionStrategy),
      pickLoop site sc pc fuel level strategies lhs rhs = some (p, s2) →
      posCmp lhs p = .lt := by
  have hps : (padSeg (α := α)) = (0, Id.Sentinel) := rfl
  have hnilbreak : ∀ (pos : Nat), 0 + 1 ≤ pos ∨ (pos = 0 ∧ Id.cmp Id.Sentinel site = .lt) →
      posCmp [] [(pos, site)] = .lt := by
    rintro pos (h1 | ⟨h1, h3⟩)
    · rw [posCmp_nil_cons, segCmp_lt_of_index (a := padSeg) (b := (pos, site))
        (by simpa [padSeg] using h1), lt_then]
    · subst h1
      rw [posCmp_nil_cons, segCmp_lt_of_id (a := padSeg) (b := (0, site)) rfl h3, lt_then]
  intro fuel
  induction fuel with
  | zero =>
    intro lhs rhs level strategies p s2 hp
    simp only [pickLoop] at hp
    exact Option.noConfusion hp
  | succ fuel ih =>
    intro lhs rhs level strategies p s2 hp
    have hnildescend : ∀ (rs0 : List (Nat × Id α)),
        (pickLoop site sc pc fuel (level + 1) strategies [] rs0).map
            (fun ps => ((0, Id.Sentinel) :: ps.1, ps.2)) = some (p, s2) →
        posCmp [] p = .lt := by
      intro rs0 hm
      rw [Option.map_eq_some'] at hm
      obtain ⟨ps, hrec, hf⟩ := hm
      obtain ⟨h1, h2⟩ := Prod.ext_iff.mp hf
      subst h1; subst h2
      have hih := ih [] rs0 (level + 1) strategies ps.1 ps.2 hrec
      rw [posCmp_nil_cons, ← hps, segCmp_padSeg_refl, eq_then]
      exact hih
    cases lhs with
    | nil =>
      cases rhs with
      | nil =>
        simp only [pickLoop] at hp
        split at hp
        · rename_i pos st2 hstep
          cases hp
          rcases pickStep_bounds hstep with ⟨h1, _⟩ | ⟨h1, _, h3⟩
          · exact hnilbreak pos (Or.inl h1)
          · exact hnilbreak pos (Or.inr ⟨h1, h3⟩)
        · exact hnildescend _ hp
      | cons r rs =>
        simp only [pickLoop] at hp
        split at hp
        · rename_i pos st2 hstep
          cases hp
          rcases pickStep_bounds hstep with ⟨h1, _⟩ | ⟨h1, _, h3⟩
          · exact hnilbreak pos (Or.inl h1)
          · exact hnilbreak pos (Or.inr ⟨h1, h3⟩)
        · exact hnildescend _ hp
    | cons l ls =>
      have hbreak : ∀ (pos : Nat), l.1 + 1 ≤ pos ∨ (pos = l.1 ∧ Id.cmp l.2 site = .lt) →
          posCmp (l :: ls) [(pos, site)] = .lt := by
        rintro pos (h1 | ⟨h1, h3⟩)
        · rw [posCmp_cons_cons, segCmp_lt_of_index (a := l) (b := (pos, site)) (by omega),
            lt_then]
        · subst h1
          rw [posCmp_cons_cons, segCmp_lt_of_id (a := l) (b := (l.1, site)) rfl h3, lt_then]
      have hconsdescend : ∀ (rs0 : List (Nat × Id α)),
          (pickLoop site sc pc fuel (level + 1) strategies ls rs0).map
              (fun ps => (l :: ps.1, ps.2)) = some (p, s2) →
          posCmp (l :: ls) p = .lt := by
        intro rs0 hm
        rw [Option.map_eq_some'] at hm
        obtain ⟨ps, hrec, hf⟩ := hm
        obtain ⟨h1, h2⟩ := Prod.ext_iff.mp hf
        subst h1; subst h2
        have hih := ih ls rs0 (level + 1) strategies ps.1 ps.2 hrec
        rw [posCmp_cons_cons, segCmp_refl l, eq_then]
        exact hih
      cases rhs with
      | nil =>
        simp only [pickLoop] at hp
        split at hp
        · rename_i pos st2 hstep
          cases hp
          rcases pickStep_bounds hstep with ⟨h1, _⟩ | ⟨h1, h2, h3⟩
          · exact hbreak pos (Or.inl h1)
          · exact hbreak pos (Or.inr ⟨h1, h3⟩)
        · exact hconsdescend _ hp
      | cons r rs =>
        simp only [pickLoop] at hp
        split at hp
        · rename_i pos st2 hstep
          cases hp
          rcases pickStep_bounds hstep with ⟨h1, _⟩ | ⟨h1, h2, h3⟩
          · exact hbreak pos (Or.inl h1)
          · exact hbreak pos (Or.inr ⟨h1, h3⟩)
        · exact hconsdescend _ hp

/-- The produced path is strictly less than the right bound, assuming the
bounds were ordered. -/
theorem pickLoop_lt_right (site : Id α) (sc : Nat → InsertionStrategy) (pc : Nat) :
    ∀ (fuel : Nat) (lhs rhs : List (Nat × Id α)) (level : Nat)
      (strategies : List InsertionStrategy) (p : List (Nat × Id α))
      (s2 : List InsertionStrategy),
      posCmp lhs rhs = .lt →
      pickLoop site sc pc fuel level strategies lhs rhs = some (p, s2) →
      posCmp p rhs = .lt := by
  have hps : (padSeg (α := α)) = (0, Id.Sentinel) := rfl
  intro fuel
  induction fuel with
  | zero =>
    intro lhs rhs level strategies p s2 hlt hp
    simp only [pickLoop] at hp
    exact Option.noConfusion hp
  | succ fuel ih =>
    intro lhs rhs level strategies p s2 hlt hp
    cases lhs with
    | nil =>
      cases rhs with
      | nil =>
        rw [posCmp_nil_nil] at hlt
        exact Ordering.noConfusion hlt
      | cons r rs =>
        simp only [pickLoop] at hp
        split at hp
        · rename_i pos st2 hstep
          cases hp
          have hposr : pos < r.1 := by
            rcases pickStep_bounds hstep with ⟨_, h2⟩ | ⟨h1, h2, _⟩ <;> omega
          rw [posCmp_cons_cons, segCmp_lt_of_index (a := (pos, site)) (b := r) hposr, lt_then]
        · rw [Option.map_eq_some'] at hp
          obtain ⟨ps, hrec, hf⟩ := hp
          obtain ⟨h1, h2⟩ := Prod.ext_iff.mp hf
          subst h1; subst h2
          rw [posCmp_nil_cons] at hlt
          rw [posCmp_cons_cons, ← hps]
          cases hseg : segCmp (padSeg (α := α)) r with
          | lt => rw [lt_then]
          | gt => rw [hseg, gt_then] at hlt; exact Ordering.noConfusion hlt
          | eq =>
            rw [hseg, eq_then] at hlt
            rw [eq_then]
            exact ih [] rs (level + 1) strategies ps.1 ps.2 hlt hrec
    | cons l ls =>
      cases rhs with
      | nil => exact absurd hlt posCmp_ne_lt_nil
      | cons r rs =>
        simp only [pickLoop] at hp
        split at hp
        · rename_i pos st2 hstep
          cases hp
          have hposr : pos < r.1 := by
            rcases pickStep_bounds hstep with ⟨_, h2⟩ | ⟨h1, h2, _⟩ <;> omega
          rw [posCmp_cons_cons, segCmp_lt_of_index (a := (pos, site)) (b := r) hposr, lt_then]
        · rw [Option.map_eq_some'] at hp
          obtain ⟨ps, hrec, hf⟩ := hp
          obtain ⟨h1, h2⟩ := Prod.ext_iff.mp hf
          subst h1; subst h2
          rw [posCmp_cons_cons] at hlt
          rw [posCmp_cons_cons]
          cases hseg : segCmp l r with
          | lt => rw [lt_then]
          | gt => rw [hseg, gt_then] at hlt; exact Ordering.noConfusion hlt
          | eq =>
            rw [hseg, eq_then] at hlt
            rw [eq_then]
            exact ih ls rs (level + 1) strategies ps.1 ps.2 hlt hrec

/-- Contract of `Key::pick`: with ordered bounds it returns a key, for every
behaviour of the random source. -/
theorem pick_isSome {self other : Key α} {site : Id α} {clock : Nat}
    {strategies : List InsertionStrategy} {sc : Nat → InsertionStrategy} {pc : Nat}
    (h : keyLt self other) :
    ∃ k s2, Key.pick self other site clock strategies sc pc = some (k, s2) := by
  unfold Key.pick
  rw [if_pos h]
  obtain ⟨p, s2, hp⟩ := pickLoop_isSome site sc pc
    (self.position.length + other.position.length + 1) self.position other.position
    0 strategies (by omega)
  rw [hp]
  exact ⟨_, _, rfl⟩

theorem pick_destruct {self other : Key α} {site : Id α} {clock : Nat}
    {strategies : List InsertionStrategy} {sc : Nat → InsertionStrategy} {pc : Nat}
    {k : Key α} {s2 : List InsertionStrategy}
    (h : Key.pick self other site clock strategies sc pc = some (k, s2)) :
    keyLt self other ∧ k.clock = clock ∧
      pickLoop site sc pc (self.position.length + other.position.length + 1)
          0 strategies self.position other.position =
        some (k.position, s2) := by
  unfold Key.pick at h
  split at h
  · rename_i hlt
    rw [Option.map_eq_some'] at h
    obtain ⟨ps, hrec, hf⟩ := h
    rw [Prod.mk.injEq] at hf
    obtain ⟨h1, h2⟩ := hf
    subst h2
    refine ⟨hlt, ?_, ?_⟩
    · rw [← h1]
    · rw [← h1]
      exact hrec
  · exact Option.noConfusion h

/-- Claim C1's core: any key returned by `pick` lies strictly between the
bounds, for every random choice. -/
theorem pick_between {self other : Key α} {site : Id α} {clock : Nat}
    {strategies : List InsertionStrategy} {sc : Nat → InsertionStrategy} {pc : Nat}
    {k : Key α} {s2 : List InsertionStrategy}
    (h : Key.pick self other site clock strategies sc pc = some (k, s2)) :
    keyLt self k ∧ keyLt k other := by
  obtain ⟨hlt, _, hrec⟩ := pick_destruct h
  exact ⟨pickLoop_lt_left site sc pc _ self.position other.position 0 strategies
      k.position s2 hrec,
    pickLoop_lt_right site sc pc _ self.position other.position 0 strategies
      k.position s2 hlt hrec⟩

theorem pick_strategies {self other : Key α} {site : Id α} {clock : Nat}
    {strategies : List InsertionStrategy} {sc : Nat → InsertionStrategy} {pc : Nat}
    {k : Key α} {s2 : List InsertionStrategy}
    (h : Key.pick self other site clock strategies sc pc = some (k, s2)) :
    ∃ t, s2 = strategies ++ t := by
  obtain ⟨_, _, hrec⟩ := pick_destruct h
  exact pickLoop_strategies site sc pc _ self.position other.position 0 strategies
    k.position s2 hrec

theorem pick_last {self other : Key α} {site : Id α} {clock : Nat}
    {strategies : List InsertionStrategy} {sc : Nat → InsertionStrategy} {pc : Nat}
    {k : Key α} {s2 : List InsertionStrategy}
    (h : Key.pick self other site clock strategies sc pc = some (k, s2)) :
    ∃ q pos, k.position = q ++ [(pos, site)] := by
  obtain ⟨_, _, hrec⟩ := pick_destruct h
  exact pickLoop_last site sc pc _ self.position other.position 0 strategies
    k.position s2 hrec

end Pick

section MapModel

variable {α : Type} [LinearOrder α] {V : Type}

/-- Entry lookup in the `BTreeMap<Key, Option<Value>>`, which compares keys
with `Key::cmp` (position only): the entry whose stored key compares equal. -/
def mapGetEntry (k : Key α) : List (Key α × Option V) → Option (Key α × Option V)
  | [] => none
  | e :: rest =>
    if posCmp k.position e.1.position = .eq then some e else mapGetEntry k rest

/-- `BTreeMap::insert` semantics on the sorted entry list: if a key comparing
equal is present, the stored key is kept and only the value is replaced;
otherwise the new entry is placed at its sorted position. -/
def mapInsert (k : Key α) (v : Option V) : List (Key α × Option V) → List (Key α × Option V)
  | [] => [(k, v)]
  | e :: rest =>
    match posCmp k.position e.1.position with
    | .lt => (k, v) :: e :: rest
    | .eq => (e.1, v) :: rest
    | .gt => e :: mapInsert k v rest

/-- Removal of the entry whose stored key compares equal to `k`
(`remove_entry` on an occupied `BTreeMap` entry). -/
def mapRemove (k : Key α) : List (Key α × Option V) → List (Key α × Option V)
  | [] => []
  | e :: rest =>
    if posCmp k.position e.1.position = .eq then rest else e :: mapRemove k rest

/-- Well-formedness of the map representation: entries strictly sorted by
key comparison, which is what a `BTreeMap` maintains. -/
def MapWF (m : List (Key α × Option V)) : Prop :=
  m.Pairwise (fun e1 e2 => posCmp e1.1.position e2.1.position = .lt)

theorem mapGetEntry_congr {k k2 : Key α} (h : posCmp k.position k2.position = .eq)
    (m : List (Key α × Option V)) : mapGetEntry k m = mapGetEntry k2 m := by
  induction m with
  | nil => rfl
  | cons e rest ih =>
    simp only [mapGetEntry]
    rw [TransCmp.cmp_congr_left h, ih]

theorem mapRemove_congr {k k2 : Key α} (h : posCmp k.position k2.position = .eq)
    (m : List (Key α × Option V)) : mapRemove k m = mapRemove k2 m := by
  induction m with
  | nil => rfl
  | cons e rest ih =>
    simp only [mapRemove]
    rw [TransCmp.cmp_congr_left h, ih]

theorem mapGetEntry_none_iff {k : Key α} {m : List (Key α × Option V)} :
    mapGetEntry k m = none ↔ ∀ e ∈ m, posCmp k.position e.1.position ≠ .eq := by
  induction m with
  | nil => simp [mapGetEntry]
  | cons e rest ih =>
    simp only [mapGetEntry]
    by_cases h : posCmp k.position e.1.position = .eq
    · simp [h]
    · simp [h, ih]

theorem mapGetEntry_mem {k : Key α} {m : List (Key α × Option V)}
    {e : Key α × Option V} (h : mapGetEntry k m = some e) :
    e ∈ m ∧ posCmp k.position e.1.position = .eq := by
  induction m with
  | nil => exact Option.noConfusion h
  | cons e2 rest ih =>
    simp only [mapGetEntry] at h
    split at h
    · rename_i heq
      cases h
      exact ⟨List.mem_cons_self _ _, heq⟩
    · obtain ⟨hm, hc⟩ := ih h
      exact ⟨List.mem_cons_of_mem _ hm, hc⟩

theorem mapGetEntry_insert_self {k : Key α} (v : Option V)
    (m : List (Key α × Option V)) :
    ∃ k0, mapGetEntry k (mapInsert k v m) = some (k0, v) := by
  induction m with
  | nil =>
    refine ⟨k, ?_⟩
    simp [mapInsert, mapGetEntry, posCmp_refl]
  | cons e rest ih =>
    cases h : posCmp k.position e.1.position with
    | lt =>
      refine ⟨k, ?_⟩
      simp [mapInsert, h, mapGetEntry, posCmp_refl]
    | eq =>
      refine ⟨e.1, ?_⟩
      simp [mapInsert, h, mapGetEntry]
    | gt =>
      obtain ⟨k0, hk0⟩ := ih
      refine ⟨k0, ?_⟩
      have hne : posCmp k.position e.1.position ≠ .eq := by rw [h]; intro hc; cases hc
      simp [mapInsert, h, mapGetEntry, hne, hk0]

theorem mapGetEntry_insert_ne {k k2 : Key α} (h : posCmp k.position k2.position ≠ .eq)
    (v : Option V) (m : List (Key α × Option V)) :
    mapGetEntry k (mapInsert k2 v m) = mapGetEntry k m := by
  induction m with
  | nil => simp [mapInsert, mapGetEntry, h]
  | cons e rest ih =>
    cases h2e : posCmp k2.position e.1.position with
    | lt => simp [mapInsert, h2e, mapGetEntry, h]
    | eq =>
      have hke : posCmp k.position e.1.position ≠ .eq := by
        rw [← TransCmp.cmp_congr_right h2e]
        exact h
      simp [mapInsert, h2e, mapGetEntry, hke]
    | gt => simp [mapInsert, h2e, mapGetEntry, ih]

theorem mapGetEntry_remove_ne {k k2 : Key α} (h : posCmp k.position k2.position ≠ .eq)
    (m : List (Key α × Option V)) :
    mapGetEntry k (mapRemove k2 m) = mapGetEntry k m := by
  induction m with
  | nil => rfl
  | cons e rest ih =>
    by_cases h2e : posCmp k2.position e.1.position = .eq
    · have hke : posCmp k.position e.1.position ≠ .eq := by
        rw [← TransCmp.cmp_congr_right h2e]
        exact h
      simp [mapRemove, h2e, mapGetEntry, hke]
    · simp [mapRemove, h2e, mapGetEntry, ih]

theorem mapGetEntry_remove_self {k k2 : Key α} {m : List (Key α × Option V)}
    (hwf : MapWF m) (h : posCmp k.position k2.position = .eq) :
    mapGetEntry k (mapRemove k2 m) = none := by
  induction m with
  | nil => rfl
  | cons e rest ih =>
    have hwfr : MapWF rest := (List.pairwise_cons.mp hwf).2
    by_cases h2e : posCmp k2.position e.1.position = .eq
    · simp only [mapRemove, if_pos h2e]
      rw [mapGetEntry_none_iff]
      intro e2 he2 hke2
      have hee2 : posCmp e.1.position e2.1.position = .lt :=
        (List.pairwise_cons.mp hwf).1 e2 he2
      have hke : posCmp k.position e.1.position = .eq := by
        rw [TransCmp.cmp_congr_right h2e] at h
        exact h
      rw [TransCmp.cmp_congr_left hke] at hke2
      rw [hee2] at hke2
      exact Ordering.noConfusion hke2
    · have hke : posCmp k.position e.1.position ≠ .eq := by
        intro hc
        rw [TransCmp.cmp_congr_left hc] at h
        rw [OrientedCmp.cmp_eq_eq_symm] at h
        exact h2e h
      simp [mapRemove, h2e, mapGetEntry, hke, ih hwfr]

theorem mapInsert_comm {k1 k2 : Key α} (hne : posCmp k1.position k2.position ≠ .eq)
    (v1 v2 : Option V) (m : List (Key α × Option V)) :
    mapInsert k1 v1 (mapInsert k2 v2 m) = mapInsert k2 v2 (mapInsert k1 v1 m) := by
  induction m with
  | nil =>
    cases h12 : posCmp k1.position k2.position with
    | eq => exact absurd h12 hne
    | lt =>
      have h21 : posCmp k2.position k1.position = .gt := OrientedCmp.cmp_eq_gt.mpr h12
      simp [mapInsert, h12, h21]
    | gt =>
      have h21 : posCmp k2.position k1.position = .lt := OrientedCmp.cmp_eq_gt.mp h12
      simp [mapInsert, h12, h21]
  | cons e rest ih =>
    cases h1e : posCmp k1.position e.1.position with
    | lt =>
      cases h2e : posCmp k2.position e.1.position with
      | lt =>
        cases h12 : posCmp k1.position k2.position with
        | eq => exact absurd h12 hne
        | lt =>
          have h21 : posCmp k2.position k1.position = .gt := OrientedCmp.cmp_eq_gt.mpr h12
          simp [mapInsert, h1e, h2e, h12, h21]
        | gt =>
          have h21 : posCmp k2.position k1.position = .lt := OrientedCmp.cmp_eq_gt.mp h12
          simp [mapInsert, h1e, h2e, h12, h21]
      | eq =>
        have h12 : posCmp k1.position k2.position = .lt := by
          rw [TransCmp.cmp_congr_right h2e]
          exact h1e
        have h21 : posCmp k2.position k1.position = .gt := OrientedCmp.cmp_eq_gt.mpr h12
        simp [mapInsert, h1e, h2e, h21]
      | gt =>
        have h21 : posCmp k2.position k1.position = .gt :=
          TransCmp.gt_trans h2e (OrientedCmp.cmp_eq_gt.mpr h1e)
        simp [mapInsert, h1e, h2e, h21]
    | eq =>
      cases h2e : posCmp k2.position e.1.position with
      | lt =>
        have h21 : posCmp k2.position k1.position = .lt := by
          rw [TransCmp.cmp_congr_right h1e]
          exact h2e
        have h12 : posCmp k1.position k2.position = .gt := OrientedCmp.cmp_eq_gt.mpr h21
        simp [mapInsert, h1e, h2e, h12]
      | eq =>
        have h12 : posCmp k1.position k2.position = .eq := by
          rw [TransCmp.cmp_congr_right h2e]
          exact h1e
        exact absurd h12 hne
      | gt =>
        simp [mapInsert, h1e, h2e]
    | gt =>
      cases h2e : posCmp k2.position e.1.position with
      | lt =>
        have h12 : posCmp k1.position k2.position = .gt :=
          TransCmp.gt_trans h1e (OrientedCmp.cmp_eq_gt.mpr h2e)
        simp [mapInsert, h1e, h2e, h12]
      | eq =>
        simp [mapInsert, h1e, h2e]
      | gt =>
        simp only [mapInsert, h1e, h2e]
        rw [ih]

theorem mapRemove_comm (k1 k2 : Key α) (m : List (Key α × Option V)) :
    mapRemove k1 (mapRemove k2 m) = mapRemove k2 (mapRemove k1 m) := by
  by_cases h12 : posCmp k1.position k2.position = .eq
  · rw [mapRemove_congr h12 (mapRemove k2 m), mapRemove_congr h12 m]
  · induction m with
    | nil => rfl
    | cons e rest ih =>
      by_cases h1e : posCmp k1.position e.1.position = .eq
      · have h2e : posCmp k2.position e.1.position ≠ .eq := by
          intro hc
          rw [OrientedCmp.cmp_eq_eq_symm] at hc
          rw [TransCmp.cmp_congr_right hc] at h1e
          exact h12 h1e
        simp [mapRemove, h1e, h2e]
      · by_cases h2e : posCmp k2.position e.1.position = .eq
        · simp [mapRemove, h1e, h2e]
        · simp [mapRemove, h1e, h2e, ih]

theorem mapInsert_all_lt {k : Key α} {v : Option V} {m : List (Key α × Option V)}
    (h : ∀ e ∈ m, posCmp k.position e.1.position = .lt) :
    mapInsert k v m = (k, v) :: m := by
  cases m with
  | nil => rfl
  | cons e rest =>
    have he := h e (List.mem_cons_self _ _)
    simp [mapInsert, he]

theorem mapRemove_insert_comm {k1 k2 : Key α}
    (hne : posCmp k1.position k2.position ≠ .eq) (v : Option V)
    {m : List (Key α × Option V)} (hwf : MapWF m) :
    mapRemove k1 (mapInsert k2 v m) = mapInsert k2 v (mapRemove k1 m) := by
  induction m with
  | nil => simp [mapInsert, mapRemove, hne]
  | cons e rest ih =>
    have hwfr : MapWF rest := (List.pairwise_cons.mp hwf).2
    have hall := (List.pairwise_cons.mp hwf).1
    cases h2e : posCmp k2.position e.1.position with
    | lt =>
      by_cases h1e : posCmp k1.position e.1.position = .eq
      · have hrest : ∀ e2 ∈ rest, posCmp k2.position e2.1.position = .lt := by
          intro e2 he2
          exact TransCmp.lt_trans h2e (hall e2 he2)
        simp only [mapInsert, h2e, mapRemove, if_neg hne, if_pos h1e]
        rw [mapInsert_all_lt hrest]
      · simp [mapInsert, h2e, mapRemove, hne, h1e]
    | eq =>
      have h1e : posCmp k1.position e.1.position ≠ .eq := by
        rw [← TransCmp.cmp_congr_right h2e]
        exact hne
      simp [mapInsert, h2e, mapRemove, h1e]
    | gt =>
      by_cases h1e : posCmp k1.position e.1.position = .eq
      · simp [mapInsert, h2e, mapRemove, h1e]
      · simp [mapInsert, h2e, mapRemove, h1e, ih hwfr]

theorem mem_mapInsert_key {x : Key α × Option V} {k : Key α} {v : Option V}
    {m : List (Key α × Option V)} (h : x ∈ mapInsert k v m) :
    x.1 = k ∨ ∃ e ∈ m, x.1 = e.1 := by
  induction m with
  | nil =>
    simp only [mapInsert, List.mem_singleton] at h
    subst h
    exact Or.inl rfl
  | cons e rest ih =>
    cases hke : posCmp k.position e.1.position with
    | lt =>
      simp only [mapInsert, hke, List.mem_cons] at h
      rcases h with h | h | h
      · subst h; exact Or.inl rfl
      · exact Or.inr ⟨e, List.mem_cons_self _ _, by rw [h]⟩
      · exact Or.inr ⟨x, List.mem_cons_of_mem _ h, rfl⟩
    | eq =>
      simp only [mapInsert, hke, List.mem_cons] at h
      rcases h with h | h
      · exact Or.inr ⟨e, List.mem_cons_self _ _, by rw [h]⟩
      · exact Or.inr ⟨x, List.mem_cons_of_mem _ h, rfl⟩
    | gt =>
      simp only [mapInsert, hke, List.mem_cons] at h
      rcases h with h | h
      · exact Or.inr ⟨e, List.mem_cons_self _ _, by rw [h]⟩
      · rcases ih h with h2 | ⟨e2, he2, hx⟩
        · exact Or.inl h2
        · exact Or.inr ⟨e2, List.mem_cons_of_mem _ he2, hx⟩

theorem MapWF_insert {m : List (Key α × Option V)} (hwf : MapWF m) (k : Key α)
    (v : Option V) : MapWF (mapInsert k v m) := by
  induction m with
  | nil => simp [mapInsert, MapWF]
  | cons e rest ih =>
    obtain ⟨hall, hwfr⟩ := List.pairwise_cons.mp hwf
    cases hke : posCmp k.position e.1.position with
    | lt =>
      simp only [mapInsert, hke, MapWF]
      rw [List.pairwise_cons]
      refine ⟨?_, hwf⟩
      intro y hy
      rcases List.mem_cons.mp hy with h | h
      · subst h; exact hke
      · exact TransCmp.lt_trans hke (hall y h)
    | eq =>
      simp only [mapInsert, hke, MapWF]
      rw [List.pairwise_cons]
      exact ⟨hall, hwfr⟩
    | gt =>
      simp only [mapInsert, hke, MapWF]
      rw [List.pairwise_cons]
      refine ⟨?_, ih hwfr⟩
      intro y hy
      rcases mem_mapInsert_key hy with h | ⟨e2, he2, hx⟩
      · rw [h]
        exact OrientedCmp.cmp_eq_gt.mp hke
      · rw [hx]
        exact hall e2 he2

theorem mem_mapRemove {x : Key α × Option V} {k : Key α}
    {m : List (Key α × Option V)} (h : x ∈ mapRemove k m) : x ∈ m := by
  induction m with
  | nil => exact absurd h (List.not_mem_nil x)
  | cons e rest ih =>
    by_cases hke : posCmp k.position e.1.position = .eq
    · simp only [mapRemove, if_pos hke] at h
      exact List.mem_cons_of_mem _ h
    · simp only [mapRemove, if_neg hke, List.mem_cons] at h
      rcases h with h | h
      · subst h; exact List.mem_cons_self _ _
      · exact List.mem_cons_of_mem _ (ih h)

theorem MapWF_remove {m : List (Key α × Option V)} (hwf : MapWF m) (k : Key α) :
    MapWF (mapRemove k m) := by
  induction m with
  | nil => simp [mapRemove, MapWF]
  | cons e rest ih =>
    obtain ⟨hall, hwfr⟩ := List.pairwise_cons.mp hwf
    by_cases hke : posCmp k.position e.1.position = .eq
    · simp only [mapRemove, if_pos hke]
      exact hwfr
    · simp only [mapRemove, if_neg hke, MapWF]
      rw [List.pairwise_cons]
      exact ⟨fun y hy => hall y (mem_mapRemove hy), ih hwfr⟩

end MapModel

section DocumentModel

variable {α : Type} [LinearOrder α] {V : Type}

/-- The fixed `start` sentinel key, `Document::start()`. -/
def startKey {α : Type} : Key α := ⟨[(0, Id.Sentinel)], 0⟩

/-- The fixed `end` sentinel key, `Document::end()`. -/
def endKey {α : Type} : Key α := ⟨[(INITIAL_WIDTH, Id.Sentinel)], 0⟩

/-- Struct `Document<SiteId, Value>` from `src/document.rs`: the ordered map
(sorted entry list), per-level strategy table, and local clock. -/
structure Document (α : Type) (V : Type) where
  content : List (Key α × Option V)
  strategies : List InsertionStrategy
  clock : Nat
deriving DecidableEq

/-- `Document::new()`: the two sentinel entries (sorted: `start < end`), a
one-entry strategy table whose entry is the first random draw `s0`, clock 2. -/
def Document.new (s0 : InsertionStrategy) : Document α V :=
  { content := [(startKey, none), (endKey, none)]
    strategies := [s0]
    clock := 2 }

/-- `Document::insert`: pick a key strictly between the bounds, assert the
order contract, store the value (evicting an equal-path entry only when its
clock is strictly older), and advance the clock.  The `assert!` and
`assert_eq!` failures are modelled as `none`. -/
def Document.insert (d : Document α V) (site : α) (left right : Key α) (v : V)
    (sc : Nat → InsertionStrategy) (pc : Nat) : Option (Key α × Document α V) :=
  match Key.pick left right (Id.Site site) d.clock d.strategies sc pc with
  | none => none
  | some (key, strategies2) =>
    if keyLt left key ∧ keyLt key right then
      match mapGetEntry key d.content with
      | none =>
        some (key, { content := mapInsert key (some v) d.content
                     strategies := strategies2
                     clock := d.clock + 1 })
      | some e =>
        if e.1.position = key.position then
          if e.1.clock < key.clock then
            some (key, { content := mapInsert key (some v) (mapRemove key d.content)
                         strategies := strategies2
                         clock := d.clock + 1 })
          else
            some (key, { content := d.content
                         strategies := strategies2
                         clock := d.clock + 1 })
        else none
    else none

/-- `Document::insert_at`: unconditional `BTreeMap::insert` of `Some(value)`
under the caller-supplied key; no clock check, no sentinel check. -/
def Document.insert_at (d : Document α V) (key : Key α) (v : V) : Document α V :=
  { d with content := mapInsert key (some v) d.content }

/-- `Document::remove`: delete the entry at `key` only when one is present
and its stored clock equals the given key's clock; otherwise a no-op. -/
def Document.remove (d : Document α V) (key : Key α) : Document α V :=
  match mapGetEntry key d.content with
  | none => d
  | some e =>
    if e.1.clock = key.clock then { d with content := mapRemove key d.content }
    else d

/-- `Document::get`: `content.get(key).and_then(Option::as_ref)`. -/
def Document.get (d : Document α V) (key : Key α) : Option V :=
  (mapGetEntry key d.content).bind (fun e => e.2)

/-- The entries produced by `Document::iter()` before the value projection:
all entries whose stored key is neither `start` nor `end` (`Key` equality,
i.e. position equality), in ascending key order. -/
def Document.iterEntries (d : Document α V) : List (Key α × Option V) :=
  d.content.filter
    (fun e => !(decide (e.1.position = (startKey (α := α)).position) ||
                decide (e.1.position = (endKey (α := α)).position)))

/-- `Document::iter()`: the stored values of the non-sentinel entries.  The
Rust iterator maps `item.1.as_ref().unwrap()`; the stored `Option` is kept
here (the code maintains that every non-sentinel entry holds `Some`). -/
def Document.iter (d : Document α V) : List (Option V) :=
  d.iterEntries.map (fun e => e.2)

/-- A remote operation as replayed through the reconciliation surface:
`insert_at(key, value)` or `remove(key)`. -/
inductive Op (α : Type) (V : Type) where
  | ins : Key α → V → Op α V
  | rem : Key α → Op α V
deriving DecidableEq

/-- Apply one replayed operation. -/
def applyOp (d : Document α V) : Op α V → Document α V
  | .ins k v => d.insert_at k v
  | .rem k => d.remove k

/-- Apply a list of replayed operations left to right. -/
def applyOps (d : Document α V) (ops : List (Op α V)) : Document α V :=
  ops.foldl applyOp d

/-- Content-level action of `Document::remove`. -/
def removeC (k : Key α) (m : List (Key α × Option V)) : List (Key α × Option V) :=
  match mapGetEntry k m with
  | none => m
  | some e => if e.1.clock = k.clock then mapRemove k m else m

theorem Document.remove_eq (d : Document α V) (k : Key α) :
    d.remove k = { d with content := removeC k d.content } := by
  unfold Document.remove removeC
  cases h : mapGetEntry k d.content with
  | none => rfl
  | some e =>
    by_cases hc : e.1.clock = k.clock
    · simp [hc]
    · simp [hc]

theorem MapWF_removeC {m : List (Key α × Option V)} (hwf : MapWF m) (k : Key α) :
    MapWF (removeC k m) := by
  unfold removeC
  cases mapGetEntry k m with
  | none => exact hwf
  | some e =>
    by_cases hc : e.1.clock = k.clock
    · simp only [if_pos hc]
      exact MapWF_remove hwf k
    · simp only [if_neg hc]
      exact hwf

theorem removeC_insert_comm {k1 k2 : Key α}
    (hne : posCmp k1.position k2.position ≠ .eq) (v : V)
    {m : List (Key α × Option V)} (hwf : MapWF m) :
    removeC k1 (mapInsert k2 (some v) m) = mapInsert k2 (some v) (removeC k1 m) := by
  unfold removeC
  rw [mapGetEntry_insert_ne hne]
  cases h : mapGetEntry k1 m with
  | none => rfl
  | some e =>
    by_cases hc : e.1.clock = k1.clock
    · simp only [if_pos hc]
      exact mapRemove_insert_comm hne (some v) hwf
    · simp only [if_neg hc]

theorem removeC_of_none {k : Key α} {m : List (Key α × Option V)}
    (h : mapGetEntry k m = none) : removeC k m = m := by
  unfold removeC
  rw [h]

theorem removeC_of_some_eq {k : Key α} {m : List (Key α × Option V)}
    {e : Key α × Option V} (h : mapGetEntry k m = some e) (hc : e.1.clock = k.clock) :
    removeC k m = mapRemove k m := by
  unfold removeC
  rw [h]
  exact if_pos hc

theorem removeC_of_some_ne {k : Key α} {m : List (Key α × Option V)}
    {e : Key α × Option V} (h : mapGetEntry k m = some e) (hc : ¬ e.1.clock = k.clock) :
    removeC k m = m := by
  unfold removeC
  rw [h]
  exact if_neg hc

theorem mapGetEntry_removeC_ne {k1 k2 : Key α}
    (h : posCmp k1.position k2.position ≠ .eq) (m : List (Key α × Option V)) :
    mapGetEntry k1 (removeC k2 m) = mapGetEntry k1 m := by
  unfold removeC
  cases mapGetEntry k2 m with
  | none => rfl
  | some e =>
    by_cases hc : e.1.clock = k2.clock
    · simp only [if_pos hc]
      exact mapGetEntry_remove_ne h m
    · simp only [if_neg hc]

theorem removeC_comm {k1 k2 : Key α} {m : List (Key α × Option V)} (hwf : MapWF m) :
    removeC k1 (removeC k2 m) = removeC k2 (removeC k1 m) := by
  by_cases h12 : posCmp k1.position k2.position = .eq
  · have h21 : posCmp k2.position k1.position = .eq := OrientedCmp.cmp_eq_eq_symm.mp h12
    have hg : mapGetEntry k1 m = mapGetEntry (V := V) k2 m := mapGetEntry_congr h12 m
    cases hge : mapGetEntry k2 m with
    | none =>
      have e2 : removeC k2 m = m := removeC_of_none hge
      have e1 : removeC k1 m = m := removeC_of_none (by rw [hg]; exact hge)
      rw [e2, e1, e2]
    | some e =>
      have hge1 : mapGetEntry k1 m = some e := by rw [hg]; exact hge
      by_cases he1 : e.1.clock = k1.clock
      · have r1 : removeC k1 m = mapRemove k1 m := removeC_of_some_eq hge1 he1
        by_cases he2 : e.1.clock = k2.clock
        · have r2 : removeC k2 m = mapRemove k2 m := removeC_of_some_eq hge he2
          have hrc : mapRemove k1 m = mapRemove (V := V) k2 m := mapRemove_congr h12 m
          rw [r2, r1, removeC_of_none (mapGetEntry_remove_self hwf h12),
            removeC_of_none (mapGetEntry_remove_self hwf h21), hrc]
        · have r2 : removeC k2 m = m := removeC_of_some_ne hge he2
          rw [r2, r1, removeC_of_none (mapGetEntry_remove_self hwf h21)]
      · have r1 : removeC k1 m = m := removeC_of_some_ne hge1 he1
        by_cases he2 : e.1.clock = k2.clock
        · have r2 : removeC k2 m = mapRemove k2 m := removeC_of_some_eq hge he2
          rw [r2, removeC_of_none (mapGetEntry_remove_self hwf h12), r1, r2]
        · have r2 : removeC k2 m = m := removeC_of_some_ne hge he2
          rw [r2, r1, r2]
  · have h21 : posCmp k2.position k1.position ≠ .eq :=
      fun hc => h12 (OrientedCmp.cmp_eq_eq_symm.mp hc)
    cases hge1 : mapGetEntry k1 m with
    | none =>
      have l1 : removeC k1 m = m := removeC_of_none hge1
      have l1b : removeC k1 (removeC k2 m) = removeC k2 m :=
        removeC_of_none (by rw [mapGetEntry_removeC_ne h12]; exact hge1)
      rw [l1b, l1]
    | some e1 =>
      by_cases hc1 : e1.1.clock = k1.clock
      · have l1 : removeC k1 m = mapRemove k1 m := removeC_of_some_eq hge1 hc1
        cases hge2 : mapGetEntry k2 m with
        | none =>
          have l2 : removeC k2 m = m := removeC_of_none hge2
          have l2b : removeC k2 (mapRemove k1 m) = mapRemove k1 m :=
            removeC_of_none (by rw [mapGetEntry_remove_ne h21]; exact hge2)
          rw [l2, l1, l2b]
        | some e2 =>
          by_cases hc2 : e2.1.clock = k2.clock
          · have l2 : removeC k2 m = mapRemove k2 m := removeC_of_some_eq hge2 hc2
            have l1b : removeC k1 (mapRemove k2 m) = mapRemove k1 (mapRemove k2 m) :=
              removeC_of_some_eq (by rw [mapGetEntry_remove_ne h12]; exact hge1) hc1
            have l2b : removeC k2 (mapRemove k1 m) = mapRemove k2 (mapRemove k1 m) :=
              removeC_of_some_eq (by rw [mapGetEntry_remove_ne h21]; exact hge2) hc2
            rw [l2, l1b, l1, l2b, mapRemove_comm]
          · have l2 : removeC k2 m = m := removeC_of_some_ne hge2 hc2
            have l2b : removeC k2 (mapRemove k1 m) = mapRemove k1 m :=
              removeC_of_some_ne (by rw [mapGetEntry_remove_ne h21]; exact hge2) hc2
            rw [l2, l1, l2b]
      · have l1 : removeC k1 m = m := removeC_of_some_ne hge1 hc1
        have l1b : removeC k1 (removeC k2 m) = removeC k2 m :=
          removeC_of_some_ne (by rw [mapGetEntry_removeC_ne h12]; exact hge1) hc1
        rw [l1b, l1]

/-- The key an operation targets. -/
def Op.key : Op α V → Key α
  | .ins k _ => k
  | .rem k => k

/-- Content-level action of one replayed operation. -/
def applyOpC (op : Op α V) (m : List (Key α × Option V)) : List (Key α × Option V) :=
  match op with
  | .ins k v => mapInsert k (some v) m
  | .rem k => removeC k m

theorem applyOp_eq (d : Document α V) (op : Op α V) :
    applyOp d op = { d with content := applyOpC op d.content } := by
  cases op with
  | ins k v => rfl
  | rem k => exact Document.remove_eq d k

theorem applyOpC_WF {m : List (Key α × Option V)} (hwf : MapWF m) (op : Op α V) :
    MapWF (applyOpC op m) := by
  cases op with
  | ins k v => exact MapWF_insert hwf k (some v)
  | rem k => exact MapWF_removeC hwf k

/-- Independence of two replayed operations: two removals are always
independent; any pair involving an insertion must target keys at different
positions. -/
def SafePair (a b : Op α V) : Prop :=
  match a, b with
  | .rem _, .rem _ => True
  | a, b => posCmp (Op.key a).position (Op.key b).position ≠ .eq

theorem SafePair_symm {a b : Op α V} (h : SafePair a b) : SafePair b a := by
  cases a <;> cases b <;> simp only [SafePair, Op.key] at h ⊢ <;>
    exact fun hc => h (OrientedCmp.cmp_eq_eq_symm.mp hc)

/-- Independent operations commute on well-formed contents. -/
theorem applyOpC_comm {a b : Op α V} (h : SafePair a b)
    {m : List (Key α × Option V)} (hwf : MapWF m) :
    applyOpC b (applyOpC a m) = applyOpC a (applyOpC b m) := by
  cases a with
  | ins k1 v1 =>
    cases b with
    | ins k2 v2 =>
      simp only [SafePair, Op.key] at h
      simp only [applyOpC]
      exact mapInsert_comm (fun hc => h (OrientedCmp.cmp_eq_eq_symm.mp hc)) _ _ m
    | rem k2 =>
      simp only [SafePair, Op.key] at h
      simp only [applyOpC]
      exact removeC_insert_comm (fun hc => h (OrientedCmp.cmp_eq_eq_symm.mp hc)) v1 hwf
  | rem k1 =>
    cases b with
    | ins k2 v2 =>
      simp only [SafePair, Op.key] at h
      simp only [applyOpC]
      exact (removeC_insert_comm h v2 hwf).symm
    | rem k2 =>
      simp only [applyOpC]
      exact removeC_comm hwf

/-- Content-level action of a list of replayed operations. -/
def applyOpsC (m : List (Key α × Option V)) (ops : List (Op α V)) :
    List (Key α × Option V) :=
  ops.foldl (fun mm op => applyOpC op mm) m

theorem applyOps_eq (d : Document α V) (ops : List (Op α V)) :
    applyOps d ops = { d with content := applyOpsC d.content ops } := by
  induction ops generalizing d with
  | nil => rfl
  | cons op l ih =>
    show applyOps (applyOp d op) l = _
    rw [ih, applyOp_eq]
    rfl

theorem applyOpsC_WF {m : List (Key α × Option V)} (hwf : MapWF m)
    (ops : List (Op α V)) : MapWF (applyOpsC m ops) := by
  induction ops generalizing m with
  | nil => exact hwf
  | cons op l ih => exact ih (applyOpC_WF hwf op)

/-- Applying a set of pairwise-independent replayed operations is invariant
under permutation of the application order. -/
theorem applyOpsC_perm {l1 l2 : List (Op α V)} (hperm : l1.Perm l2) :
    ∀ (m : List (Key α × Option V)), MapWF m → l1.Pairwise SafePair →
      applyOpsC m l1 = applyOpsC m l2 := by
  induction hperm with
  | nil => intro m _ _; rfl
  | cons x hp ih =>
    intro m hwf hpair
    show applyOpsC (applyOpC x m) _ = applyOpsC (applyOpC x m) _
    exact ih (applyOpC x m) (applyOpC_WF hwf x) (List.pairwise_cons.mp hpair).2
  | swap x y l =>
    intro m hwf hpair
    show applyOpsC (applyOpC x (applyOpC y m)) l = applyOpsC (applyOpC y (applyOpC x m)) l
    have hxy : SafePair y x := (List.pairwise_cons.mp hpair).1 x (List.mem_cons_self _ _)
    rw [applyOpC_comm hxy hwf]
  | trans h1 h2 ih1 ih2 =>
    intro m hwf hpair
    rw [ih1 m hwf hpair]
    exact ih2 m hwf ((h1.pairwise_iff (fun h => SafePair_symm h)).mp hpair)

theorem padGet_append_singleton {q : List (Nat × Id α)} {x : Nat × Id α} :
    padGet (q ++ [x]) q.length = x := by
  induction q with
  | nil => rfl
  | cons a q ih => exact ih

theorem padGet_sentinel_snd (i w : Nat) :
    (padGet ([(w, Id.Sentinel)] : List (Nat × Id α)) i).2 = Id.Sentinel := by
  cases i with
  | zero => rfl
  | succ j => rfl

/-- Keys whose path ends in a `Site`-tagged segment — every key `pick`
produces for a real site — never compare equal to a sentinel key. -/
theorem siteKey_ne_sentinelPos {q : List (Nat × Id α)} {pos : Nat} {s : α} {w : Nat} :
    posCmp (q ++ [(pos, Id.Site s)]) [(w, Id.Sentinel)] ≠ .eq := by
  intro h
  have hp := posCmp_eq_iff.mp h q.length
  have hl : padGet (q ++ [(pos, Id.Site s)]) q.length = (pos, Id.Site s) :=
    padGet_append_singleton
  have hr := padGet_sentinel_snd (α := α) q.length w
  rw [hl] at hp
  rw [← hp] at hr
  exact Id.noConfusion hr

/-- Sentinel integrity: both sentinel entries are stored intact, with their
original keys and the permanent `None` value. -/
def SentinelInv (d : Document α V) : Prop :=
  mapGetEntry startKey d.content = some (startKey, none) ∧
    mapGetEntry endKey d.content = some (endKey, none)

theorem SentinelInv_new (s0 : InsertionStrategy) :
    SentinelInv (Document.new (α := α) (V := V) s0) := by
  constructor
  · simp [Document.new, mapGetEntry, posCmp_refl]
  · have hse : posCmp (endKey (α := α)).position startKey.position = .gt := by
      apply OrientedCmp.cmp_eq_gt.mpr
      show posCmp [((0 : Nat), (Id.Sentinel : Id α))] [(INITIAL_WIDTH, Id.Sentinel)] = .lt
      rw [posCmp_cons_cons]
      rw [segCmp_lt_of_index (a := ((0 : Nat), (Id.Sentinel : Id α)))
        (b := (INITIAL_WIDTH, Id.Sentinel)) (by unfold INITIAL_WIDTH; omega), lt_then]
    have hne : posCmp (endKey (α := α)).position startKey.position ≠ .eq := by
      rw [hse]; exact fun hc => Ordering.noConfusion hc
    simp [Document.new, mapGetEntry, hne, posCmp_refl]

theorem SentinelInv_insert_at {d : Document α V} (hinv : SentinelInv d) {k : Key α}
    (hs : posCmp k.position (startKey (α := α)).position ≠ .eq)
    (he : posCmp k.position (endKey (α := α)).position ≠ .eq) (v : V) :
    SentinelInv (d.insert_at k v) := by
  obtain ⟨h1, h2⟩ := hinv
  constructor
  · show mapGetEntry startKey (mapInsert k (some v) d.content) = _
    rw [mapGetEntry_insert_ne (fun hc => hs (OrientedCmp.cmp_eq_eq_symm.mp hc))]
    exact h1
  · show mapGetEntry endKey (mapInsert k (some v) d.content) = _
    rw [mapGetEntry_insert_ne (fun hc => he (OrientedCmp.cmp_eq_eq_symm.mp hc))]
    exact h2

theorem SentinelInv_remove {d : Document α V} (hinv : SentinelInv d) {k : Key α}
    (hs : posCmp k.position (startKey (α := α)).position ≠ .eq)
    (he : posCmp k.position (endKey (α := α)).position ≠ .eq) :
    SentinelInv (d.remove k) := by
  obtain ⟨h1, h2⟩ := hinv
  rw [Document.remove_eq]
  constructor
  · show mapGetEntry startKey (removeC k d.content) = _
    rw [mapGetEntry_removeC_ne (fun hc => hs (OrientedCmp.cmp_eq_eq_symm.mp hc))]
    exact h1
  · show mapGetEntry endKey (removeC k d.content) = _
    rw [mapGetEntry_removeC_ne (fun hc => he (OrientedCmp.cmp_eq_eq_symm.mp hc))]
    exact h2

theorem insert_unfold {d : Document α V} {site : α} {left right : Key α} {v : V}
    {sc : Nat → InsertionStrategy} {pc : Nat} {key : Key α}
    {s2 : List InsertionStrategy}
    (hp : Key.pick left right (Id.Site site) d.clock d.strategies sc pc = some (key, s2)) :
    Document.insert d site left right v sc pc =
      if keyLt left key ∧ keyLt key right then
        match mapGetEntry key d.content with
        | none =>
          some (key, { content := mapInsert key (some v) d.content
                       strategies := s2
                       clock := d.clock + 1 })
        | some e =>
          if e.1.position = key.position then
            if e.1.clock < key.clock then
              some (key, { content := mapInsert key (some v) (mapRemove key d.content)
                           strategies := s2
                           clock := d.clock + 1 })
            else
              some (key, { content := d.content
                           strategies := s2
                           clock := d.clock + 1 })
          else none
      else none := by
  unfold Document.insert
  rw [hp]

theorem insert_destruct {d : Document α V} {site : α} {left right k : Key α} {v : V}
    {sc : Nat → InsertionStrategy} {pc : Nat} {d2 : Document α V}
    (h : Document.insert d site left right v sc pc = some (k, d2)) :
    ∃ s2, Key.pick left right (Id.Site site) d.clock d.strategies sc pc = some (k, s2) ∧
      d2.strategies = s2 ∧ d2.clock = d.clock + 1 := by
  cases hp : Key.pick left right (Id.Site site) d.clock d.strategies sc pc with
  | none =>
    unfold Document.insert at h
    rw [hp] at h
    exact Option.noConfusion h
  | some ps =>
    obtain ⟨key, s2⟩ := ps
    rw [insert_unfold (v := v) hp] at h
    refine ⟨s2, ?_⟩
    split at h
    · split at h
      · cases h
        exact ⟨rfl, rfl, rfl⟩
      · split at h
        · split at h
          · cases h
            exact ⟨rfl, rfl, rfl⟩
          · cases h
            exact ⟨rfl, rfl, rfl⟩
        · exact Option.noConfusion h
    · exact Option.noConfusion h

theorem insert_key_ne_sentinels {d : Document α V} {site : α} {left right k : Key α}
    {v : V} {sc : Nat → InsertionStrategy} {pc : Nat} {d2 : Document α V}
    (h : Document.insert d site left right v sc pc = some (k, d2)) :
    posCmp k.position (startKey (α := α)).position ≠ .eq ∧
      posCmp k.position (endKey (α := α)).position ≠ .eq := by
  obtain ⟨s2, hp, _⟩ := insert_destruct h
  obtain ⟨q, pos, hq⟩ := pick_last hp
  rw [hq]
  exact ⟨siteKey_ne_sentinelPos, siteKey_ne_sentinelPos⟩

theorem SentinelInv_insert {d : Document α V} (hinv : SentinelInv d) {site : α}
    {left right k : Key α} {v : V} {sc : Nat → InsertionStrategy} {pc : Nat}
    {d2 : Document α V}
    (h : Document.insert d site left right v sc pc = some (k, d2)) :
    SentinelInv d2 := by
  obtain ⟨hs, he⟩ := insert_key_ne_sentinels h
  have hs2 : posCmp (startKey (α := α)).position k.position ≠ .eq :=
    fun hc => hs (OrientedCmp.cmp_eq_eq_symm.mp hc)
  have he2 : posCmp (endKey (α := α)).position k.position ≠ .eq :=
    fun hc => he (OrientedCmp.cmp_eq_eq_symm.mp hc)
  obtain ⟨h1, h2⟩ := hinv
  obtain ⟨s2, hp, _⟩ := insert_destruct h
  rw [insert_unfold (v := v) hp] at h
  split at h
  · split at h
    · cases h
      constructor
      · show mapGetEntry startKey (mapInsert k (some v) d.content) = _
        rw [mapGetEntry_insert_ne hs2]
        exact h1
      · show mapGetEntry endKey (mapInsert k (some v) d.content) = _
        rw [mapGetEntry_insert_ne he2]
        exact h2
    · split at h
      · split at h
        · cases h
          constructor
          · show mapGetEntry startKey
                (mapInsert k (some v) (mapRemove k d.content)) = _
            rw [mapGetEntry_insert_ne hs2, mapGetEntry_remove_ne hs2]
            exact h1
          · show mapGetEntry endKey
                (mapInsert k (some v) (mapRemove k d.content)) = _
            rw [mapGetEntry_insert_ne he2, mapGetEntry_remove_ne he2]
            exact h2
        · cases h
          exact ⟨h1, h2⟩
      · exact Option.noConfusion h
  · exact Option.noConfusion h

theorem SentinelInv_get {d : Document α V} (hinv : SentinelInv d) :
    d.get startKey = none ∧ d.get endKey = none ∧ d.content ≠ [] := by
  obtain ⟨h1, h2⟩ := hinv
  refine ⟨?_, ?_, ?_⟩
  · unfold Document.get
    rw [h1]
    rfl
  · unfold Document.get
    rw [h2]
    rfl
  · intro hc
    rw [hc] at h1
    exact Option.noConfusion h1

theorem iterEntries_ne_sentinels {d : Document α V} {e : Key α × Option V}
    (h : e ∈ d.iterEntries) :
    e.1.position ≠ (startKey (α := α)).position ∧
      e.1.position ≠ (endKey (α := α)).position := by
  unfold Document.iterEntries at h
  have hp := (List.mem_filter.mp h).2
  constructor
  · intro hc
    simp [hc] at hp
  · intro hc
    simp [hc] at hp

theorem getEntry_bind_insert (k : Key α) (v : V) (m : List (Key α × Option V)) :
    (mapGetEntry k (mapInsert k (some v) m)).bind (fun e => e.2) = some v := by
  obtain ⟨k0, hk0⟩ := mapGetEntry_insert_self (k := k) (some v) m
  rw [hk0]
  rfl

theorem get_insert_at (d : Document α V) (k : Key α) (v : V) :
    Document.get (d.insert_at k v) k = some v := by
  show (mapGetEntry k (mapInsert k (some v) d.content)).bind (fun e => e.2) = some v
  exact getEntry_bind_insert k v d.content

theorem removeC_idem {m : List (Key α × Option V)} (hwf : MapWF m) (k : Key α) :
    removeC k (removeC k m) = removeC k m := by
  cases hge : mapGetEntry k m with
  | none => rw [removeC_of_none hge, removeC_of_none hge]
  | some e =>
    by_cases hc : e.1.clock = k.clock
    · rw [removeC_of_some_eq hge hc,
        removeC_of_none (mapGetEntry_remove_self hwf (posCmp_refl k.position))]
    · rw [removeC_of_some_ne hge hc, removeC_of_some_ne hge hc]

instance : DecidableRel (SafePair (α := α) (V := V)) := fun a b => by
  cases a <;> cases b <;> simp only [SafePair, Op.key] <;> infer_instance

instance (m : List (Key α × Option V)) : Decidable (MapWF m) := by
  unfold MapWF
  infer_instance

instance [DecidableEq V] (d : Document α V) : Decidable (SentinelInv d) := by
  unfold SentinelInv
  infer_instance

end DocumentModel

section Claims

variable {α : Type} [LinearOrder α] {V : Type}

/-- C1: for every pair of identifiers `left < right` and every requesting
site identifier, the key produced by `Key::pick` — and the key returned by
`Document::insert` with those bounds — satisfies `left < k < right`, for
every choice the random source makes (every strategy oracle `sc` and every
index draw `pc`). -/
theorem claim_C1 (left right : Key α) (site : Id α) (siteId : α)
    (clock pc : Nat) (strategies : List InsertionStrategy)
    (sc : Nat → InsertionStrategy) (d : Document α V) (v : V)
    (h : keyLt left right) :
    (∀ k s2, Key.pick left right site clock strategies sc pc = some (k, s2) →
      keyLt left k ∧ keyLt k right) ∧
    (∀ k d2, Document.insert d siteId left right v sc pc = some (k, d2) →
      keyLt left k ∧ keyLt k right) := by
  refine ⟨fun k s2 hp => pick_between hp, fun k d2 hins => ?_⟩
  obtain ⟨s2, hp, _⟩ := insert_destruct hins
  exact pick_between hp

/-- Witness for C1 at concrete inputs: `pick` between the two sentinels of a
fresh document yields the key `[(1, Site 0)]`, strictly between them. -/
theorem claim_C1_witness :
    keyLt (startKey : Key Nat) (⟨[(1, Id.Site 0)], 2⟩ : Key Nat) ∧
      keyLt (⟨[(1, Id.Site 0)], 2⟩ : Key Nat) endKey :=
  (claim_C1 (V := Nat) startKey endKey (Id.Site 0) 0 2 0 [InsertionStrategy.Front]
      (fun _ => InsertionStrategy.Front) (Document.new .Front) 5 (by decide)).1
    ⟨[(1, Id.Site 0)], 2⟩ [InsertionStrategy.Front] (by decide)

/-- C2 (amended): applying a fixed set of replayed `insert_at`/`remove`
operations to a document in any permutation yields the same document — and
hence the same `iter()` sequence — provided the operations are pairwise
independent: removals may be freely reordered among themselves, but any
pair involving an insertion must target keys at distinct positions.  In
particular a removal may not be reordered across the insertion of the same
key; the unrestricted claim is refuted by `claim_C2_counterexample`. -/
theorem claim_C2 (d : Document α V) (l1 l2 : List (Op α V))
    (hperm : l1.Perm l2) (hpair : l1.Pairwise SafePair) (hwf : MapWF d.content) :
    applyOps d l1 = applyOps d l2 ∧ (applyOps d l1).iter = (applyOps d l2).iter := by
  have h := applyOpsC_perm hperm d.content hwf hpair
  constructor
  · rw [applyOps_eq, applyOps_eq, h]
  · rw [applyOps_eq, applyOps_eq, h]

/-- Witness for C2: an insertion and an independent removal applied to a
fresh document in both orders give the same document. -/
theorem claim_C2_witness :
    applyOps (Document.new InsertionStrategy.Front : Document Nat Nat)
        [Op.ins ⟨[(1, Id.Site 0)], 2⟩ 5, Op.rem ⟨[(2, Id.Site 0)], 3⟩] =
      applyOps (Document.new InsertionStrategy.Front)
        [Op.rem ⟨[(2, Id.Site 0)], 3⟩, Op.ins ⟨[(1, Id.Site 0)], 2⟩ 5] :=
  (claim_C2 (Document.new InsertionStrategy.Front)
      [Op.ins ⟨[(1, Id.Site 0)], 2⟩ 5, Op.rem ⟨[(2, Id.Site 0)], 3⟩]
      [Op.rem ⟨[(2, Id.Site 0)], 3⟩, Op.ins ⟨[(1, Id.Site 0)], 2⟩ 5]
      (List.Perm.swap (Op.rem ⟨[(2, Id.Site 0)], 3⟩) (Op.ins ⟨[(1, Id.Site 0)], 2⟩ 5) [])
      (by decide) (by decide)).1

/-- Counterexample to C2 as stated: a source document inserts value 5 at key
`[(1, Site 0)]` (clock 2) and then removes it, so its `iter()` is `[]`; a
fresh replica applying the same two operations with the removal first
(a permutation "respecting no ordering constraint") ends with `iter()`
yielding the value 5, because the early removal is a no-op. -/
theorem claim_C2_counterexample :
    (Document.insert (Document.new InsertionStrategy.Front : Document Nat Nat) 0
        startKey endKey 5 (fun _ => InsertionStrategy.Front) 0).map
      (fun p => p.1) = some ⟨[(1, Id.Site 0)], 2⟩ ∧
    (Document.insert (Document.new InsertionStrategy.Front : Document Nat Nat) 0
        startKey endKey 5 (fun _ => InsertionStrategy.Front) 0).map
      (fun p => (p.2.remove p.1).iter) = some [] ∧
    (applyOps (Document.new InsertionStrategy.Front : Document Nat Nat)
        [Op.rem ⟨[(1, Id.Site 0)], 2⟩, Op.ins ⟨[(1, Id.Site 0)], 2⟩ 5]).iter =
      [some 5] := by
  decide

/-- C3 (amended): the sentinel entries survive construction, every
`insert`, and every `insert_at`/`remove` whose key does not compare equal
to a sentinel key; under that invariant `get` on a sentinel returns `none`
and the map is non-empty, and `iter()` never yields an entry stored at a
sentinel position.  Unrestricted `remove`/`insert_at` violate the original
claim: see `claim_C3_counterexample`. -/
theorem claim_C3 (s0 : InsertionStrategy) (d d2 : Document α V) (site : α)
    (left right k : Key α) (v : V) (sc : Nat → InsertionStrategy) (pc : Nat)
    (e : Key α × Option V) :
    SentinelInv (Document.new (α := α) (V := V) s0) ∧
    (SentinelInv d → Document.insert d site left right v sc pc = some (k, d2) →
      SentinelInv d2) ∧
    (SentinelInv d → posCmp k.position (startKey (α := α)).position ≠ .eq →
      posCmp k.position (endKey (α := α)).position ≠ .eq →
      SentinelInv (d.insert_at k v) ∧ SentinelInv (d.remove k)) ∧
    (SentinelInv d → d.get startKey = none ∧ d.get endKey = none ∧ d.content ≠ []) ∧
    (e ∈ d.iterEntries → e.1.position ≠ (startKey (α := α)).position ∧
      e.1.position ≠ (endKey (α := α)).position) := by
  refine ⟨SentinelInv_new s0, fun hinv hins => SentinelInv_insert hinv hins,
    fun hinv hs he => ⟨SentinelInv_insert_at hinv hs he v, SentinelInv_remove hinv hs he⟩,
    fun hinv => SentinelInv_get hinv, fun hmem => iterEntries_ne_sentinels hmem⟩

/-- Witness for C3: the invariant holds for a fresh document and is kept by
an `insert_at` and a `remove` at the non-sentinel key `[(1, Site 0)]`. -/
theorem claim_C3_witness :
    SentinelInv ((Document.new InsertionStrategy.Front : Document Nat Nat).insert_at
        ⟨[(1, Id.Site 0)], 2⟩ 5) ∧
      SentinelInv ((Document.new InsertionStrategy.Front : Document Nat Nat).remove
        ⟨[(1, Id.Site 0)], 2⟩) :=
  (claim_C3 InsertionStrategy.Front (Document.new InsertionStrategy.Front)
      (Document.new InsertionStrategy.Front) 0 startKey endKey
      ⟨[(1, Id.Site 0)], 2⟩ 5 (fun _ => InsertionStrategy.Front) 0
      (startKey, none)).2.2.1 (by decide) (by decide) (by decide)

/-- Counterexample to C3 as stated: calling `remove` with the `start()` key
(stored clock 0 matches) deletes the start sentinel from the map, so the
sentinels are not preserved by every operation sequence. -/
theorem claim_C3_counterexample :
    mapGetEntry (startKey : Key Nat)
        ((Document.new InsertionStrategy.Front : Document Nat Nat).remove
          startKey).content = none ∧
      ((Document.new InsertionStrategy.Front : Document Nat Nat).remove
          startKey).content = [(endKey, none)] := by
  decide

/-- C4: removing a key with no matching entry leaves the document unchanged
and signals no error, and `remove` is idempotent: removing the same key
twice equals removing it once (second call is a no-op). -/
theorem claim_C4 (d : Document α V) (k : Key α) (hwf : MapWF d.content) :
    (mapGetEntry k d.content = none → d.remove k = d) ∧
    (d.remove k).remove k = d.remove k := by
  constructor
  · intro h
    unfold Document.remove
    rw [h]
  · rw [Document.remove_eq d k, Document.remove_eq]
    show ({ d with content := removeC k (removeC k d.content) } : Document α V) = _
    rw [removeC_idem hwf k]

/-- Witness for C4 at a fresh document and the absent key `[(1, Site 0)]`. -/
theorem claim_C4_witness :
    (Document.new InsertionStrategy.Front : Document Nat Nat).remove
        ⟨[(1, Id.Site 0)], 2⟩ = Document.new InsertionStrategy.Front ∧
    ((Document.new InsertionStrategy.Front : Document Nat Nat).remove
          ⟨[(1, Id.Site 0)], 2⟩).remove ⟨[(1, Id.Site 0)], 2⟩ =
      (Document.new InsertionStrategy.Front : Document Nat Nat).remove
        ⟨[(1, Id.Site 0)], 2⟩ :=
  ⟨(claim_C4 (Document.new InsertionStrategy.Front) ⟨[(1, Id.Site 0)], 2⟩
      (by decide)).1 (by decide),
   (claim_C4 (Document.new InsertionStrategy.Front) ⟨[(1, Id.Site 0)], 2⟩
      (by decide)).2⟩

/-- C5: for every pair of identifiers `left < right`, the level-descent loop
of `pick` terminates and `pick` returns a key, for every random choice: at
depth `|left| + |right|` at the latest both iterators are exhausted, the
left side defaults to `(0, Sentinel)` while the right default `width(level)`
grows, so a level with a free slot is always reached (here: the sufficient
fuel `|left| + |right| + 1` always yields `some`). -/
theorem claim_C5 (left right : Key α) (site : Id α) (clock : Nat)
    (strategies : List InsertionStrategy) (sc : Nat → InsertionStrategy) (pc : Nat)
    (h : keyLt left right) :
    ∃ k s2, Key.pick left right site clock strategies sc pc = some (k, s2) :=
  pick_isSome h

/-- Witness for C5: `pick` between the sentinels returns a key. -/
theorem claim_C5_witness :
    (Key.pick (startKey : Key Nat) endKey (Id.Site 0) 2 [InsertionStrategy.Front]
        (fun _ => InsertionStrategy.Front) 0).isSome = true := by
  obtain ⟨k, s2, hk⟩ := claim_C5 (startKey : Key Nat) endKey (Id.Site 0) 2
    [InsertionStrategy.Front] (fun _ => InsertionStrategy.Front) 0 (by decide)
  rw [hk]
  rfl

/-- C6 (amended): after `insert` returns `(k, d2)`, the document clock has
advanced by one and `k` carries the old clock; the value is stored under `k`
— with a pre-existing same-path entry evicted and replaced — whenever that
entry's clock is strictly lower than the current clock (in particular when
the path is vacant).  When the pre-existing entry carries a clock `≥` the
current clock the map is left unchanged, so `get` returns the stale value:
the unconditional eviction of the original claim is refuted by
`claim_C6_counterexample`. -/
theorem claim_C6 (d : Document α V) (site : α) (left right : Key α) (v : V)
    (sc : Nat → InsertionStrategy) (pc : Nat) (k : Key α) (d2 : Document α V)
    (h : keyLt left right)
    (hins : Document.insert d site left right v sc pc = some (k, d2)) :
    d2.clock = d.clock + 1 ∧ k.clock = d.clock ∧
    (mapGetEntry k d.content = none → d2.get k = some v) ∧
    (∀ e, mapGetEntry k d.content = some e → e.1.clock < d.clock →
      d2.get k = some v) ∧
    (∀ e, mapGetEntry k d.content = some e → ¬ e.1.clock < d.clock →
      d2.content = d.content) := by
  obtain ⟨s2, hp, hstrat, hclock⟩ := insert_destruct hins
  have hkc : k.clock = d.clock := (pick_destruct hp).2.1
  rw [insert_unfold (v := v) hp] at hins
  split at hins
  · split at hins
    · rename_i heq
      cases hins
      refine ⟨hclock, hkc, fun _ => ?_, fun e2 he2 _ => ?_, fun e2 he2 _ => ?_⟩
      · exact getEntry_bind_insert k v d.content
      · rw [heq] at he2; exact Option.noConfusion he2
      · rw [heq] at he2; exact Option.noConfusion he2
    · rename_i e heq
      split at hins
      · split at hins
        · rename_i hlt2
          cases hins
          refine ⟨hclock, hkc, fun hnone => ?_, fun e2 he2 _ => ?_,
            fun e2 he2 hne2 => ?_⟩
          · rw [heq] at hnone; exact Option.noConfusion hnone
          · exact getEntry_bind_insert k v (mapRemove k d.content)
          · rw [heq] at he2
            have he : e = e2 := Option.some.inj he2
            rw [hkc] at hlt2
            rw [← he] at hne2
            exact absurd hlt2 hne2
        · rename_i hge
          cases hins
          refine ⟨hclock, hkc, fun hnone => ?_, fun e2 he2 hlt2 => ?_,
            fun e2 he2 hne2 => ?_⟩
          · rw [heq] at hnone; exact Option.noConfusion hnone
          · rw [heq] at he2
            have he : e = e2 := Option.some.inj he2
            rw [hkc] at hge
            rw [← he] at hlt2
            exact absurd hlt2 hge
          · rfl
      · exact Option.noConfusion hins
  · exact Option.noConfusion hins

/-- Witness for C6: inserting into a fresh document (vacant path) stores
the value and advances the clock from 2 to 3. -/
theorem claim_C6_witness :
    ({ content := [(startKey, none), (⟨[(1, Id.Site 0)], 2⟩, some 5), (endKey, none)]
       strategies := [InsertionStrategy.Front]
       clock := 3 } : Document Nat Nat).clock =
        (Document.new InsertionStrategy.Front : Document Nat Nat).clock + 1 ∧
    ({ content := [(startKey, none), (⟨[(1, Id.Site 0)], 2⟩, some 5), (endKey, none)]
       strategies := [InsertionStrategy.Front]
       clock := 3 } : Document Nat Nat).get ⟨[(1, Id.Site 0)], 2⟩ = some 5 := by
  have h := claim_C6 (Document.new InsertionStrategy.Front : Document Nat Nat) 0
    startKey endKey 5 (fun _ => InsertionStrategy.Front) 0 ⟨[(1, Id.Site 0)], 2⟩
    { content := [(startKey, none), (⟨[(1, Id.Site 0)], 2⟩, some 5), (endKey, none)]
      strategies := [InsertionStrategy.Front]
      clock := 3 } (by decide) (by decide)
  exact ⟨h.1, h.2.2.1 (by decide)⟩

/-- Counterexample to C6 as stated: plant an entry at path `[(1, Site 0)]`
with clock 99 via `insert_at`, then `insert` between the sentinels.  The
computed key collides with that path, but since `99 < 2` fails the stale
entry is kept: `get` on the returned key yields the old value 7, not the
inserted 5 (the clock still advances to 3). -/
theorem claim_C6_counterexample :
    (Document.insert ((Document.new InsertionStrategy.Front : Document Nat Nat).insert_at
          ⟨[(1, Id.Site 0)], 99⟩ 7) 0 startKey endKey 5
        (fun _ => InsertionStrategy.Front) 0).map
      (fun p => (p.2.get p.1, p.2.clock)) = some (some 7, 3) ∧
    (some (7 : Nat) : Option Nat) ≠ some 5 := by
  decide

/-- C7: strategy assignment is lazy (the table is extended exactly up to the
first level that needs it) and sticky: a level already assigned is read
back unchanged with the table untouched, and every `pick` only appends to
the table, never rewriting existing entries — so all later allocations at a
level use the strategy first assigned to it. -/
theorem claim_C7 (sc : Nat → InsertionStrategy) (strategies : List InsertionStrategy)
    (level : Nat) (left right : Key α) (site : Id α) (clock pc : Nat) :
    (level < strategies.length →
      get_strategy sc strategies level = (strategies.getD level .Front, strategies)) ∧
    (∃ t, (get_strategy sc strategies level).2 = strategies ++ t ∧
      (get_strategy sc strategies level).2.length = max strategies.length (level + 1)) ∧
    (∀ k s2, Key.pick left right site clock strategies sc pc = some (k, s2) →
      ∃ t, s2 = strategies ++ t) :=
  ⟨fun h => get_strategy_of_lt h, ⟨_, rfl, extendStrategies_length⟩,
    fun k s2 hp => pick_strategies hp⟩

/-- Witness for C7: reading level 0 of a one-entry table returns the stored
strategy and leaves the table unchanged. -/
theorem claim_C7_witness :
    get_strategy (fun _ => InsertionStrategy.Front) [InsertionStrategy.Back] 0 =
      (InsertionStrategy.Back, [InsertionStrategy.Back]) :=
  (claim_C7 (α := Nat) (fun _ => InsertionStrategy.Front) [InsertionStrategy.Back] 0
      startKey endKey (Id.Site 0) 2 0).1 (by decide)

/-- C8: whenever `pick` finds room at a level (`left.index + 1 < right.index`,
a missing right segment defaulting to `width(level) = INITIAL_WIDTH * 2^level`
with `INITIAL_WIDTH = 5`), the allocated index lies in
`[left.index+1, left.index+1+STEP)` intersected with the gap under `Front`
and in `[right.index-STEP, right.index)` intersected with the gap under
`Back`, with `STEP = 2`. -/
theorem claim_C8 (lpos rpos pc : Nat) (h : lpos + 1 < rpos) :
    (lpos + 1 ≤ pick_position pc (lpos + 1) rpos .Front ∧
      pick_position pc (lpos + 1) rpos .Front < lpos + 1 + STEP ∧
      pick_position pc (lpos + 1) rpos .Front < rpos) ∧
    (rpos - STEP ≤ pick_position pc (lpos + 1) rpos .Back ∧
      lpos + 1 ≤ pick_position pc (lpos + 1) rpos .Back ∧
      pick_position pc (lpos + 1) rpos .Back < rpos) ∧
    (∀ level, width level = INITIAL_WIDTH * 2 ^ level) ∧ STEP = 2 ∧
      INITIAL_WIDTH = 5 := by
  have hltf : lpos + 1 < min (lpos + 1 + STEP) rpos := by
    unfold STEP
    omega
  have hf := genRange_bounds hltf pc
  have hltb : max (rpos - STEP) (lpos + 1) < rpos := by
    unfold STEP
    omega
  have hb := genRange_bounds hltb pc
  refine ⟨⟨hf.1, ?_, ?_⟩, ⟨?_, ?_, hb.2⟩, fun _ => rfl, rfl, rfl⟩
  · exact lt_of_lt_of_le hf.2 (min_le_left _ _)
  · exact lt_of_lt_of_le hf.2 (min_le_right _ _)
  · exact le_trans (Nat.le_max_left _ _) hb.1
  · exact le_trans (Nat.le_max_right _ _) hb.1

/-- Witness for C8 at the gap `[1, 5)` of a fresh document's first level. -/
theorem claim_C8_witness :
    1 ≤ pick_position 0 1 5 InsertionStrategy.Front ∧
      pick_position 0 1 5 InsertionStrategy.Front < 1 + STEP ∧
      pick_position 0 1 5 InsertionStrategy.Front < 5 :=
  (claim_C8 0 5 0 (by decide)).1

/-- C9 (amended): key comparison is the lexicographic order over path
segments with `(0, Sentinel)` padding, a total order up to padding: it is
antisymmetric (`swap`), transitive, and returns `Equal` exactly when the two
padded segment sequences agree pointwise — which coincides with equality of
the path sequences except for trailing `(0, Sentinel)` segments
(`claim_C9_counterexample`); the clock field influences neither comparison
nor equality. -/
theorem claim_C9 (a b c : Key α) (p q : List (Nat × Id α)) (c1 c2 c3 c4 : Nat) :
    ((Key.cmp a b).swap = Key.cmp b a) ∧
    (Key.cmp a b = .lt → Key.cmp b c = .lt → Key.cmp a c = .lt) ∧
    (Key.cmp a b = .eq ↔ ∀ i, padGet a.position i = padGet b.position i) ∧
    (Key.cmp ⟨p, c1⟩ ⟨q, c2⟩ = Key.cmp ⟨p, c3⟩ ⟨q, c4⟩) ∧
    ((⟨p, c1⟩ : Key α).position = (⟨q, c2⟩ : Key α).position ↔ p = q) := by
  refine ⟨OrientedCmp.symm a.position b.position, fun h1 h2 => ?_, posCmp_eq_iff,
    rfl, Iff.rfl⟩
  show posCmp a.position c.position = .lt
  exact TransCmp.lt_trans (show posCmp a.position b.position = .lt from h1)
    (show posCmp b.position c.position = .lt from h2)

/-- Witness for C9: transitivity at the concrete keys
`start < [(1, Site 0)] < end`. -/
theorem claim_C9_witness : Key.cmp (startKey : Key Nat) endKey = .lt :=
  (claim_C9 (startKey : Key Nat) ⟨[(1, Id.Site 0)], 2⟩ endKey [] [] 0 0 0 0).2.1
    (by decide) (by decide)

/-- Counterexample to C9 as stated: two keys whose paths differ by a
trailing `(0, Sentinel)` segment compare `Equal` although their path
sequences are not equal. -/
theorem claim_C9_counterexample :
    Key.cmp (⟨[(1, Id.Site 0), (0, Id.Sentinel)], 0⟩ : Key Nat)
        ⟨[(1, Id.Site 0)], 0⟩ = .eq ∧
      ([(1, Id.Site 0), (0, Id.Sentinel)] : List (Nat × Id Nat)) ≠
        [(1, Id.Site 0)] := by
  decide

/-- C10: `insert_at(k, v)` unconditionally sets the entry at `k`'s path to
`Some(v)` — no clock comparison is made, so the write succeeds even when the
stored entry carries a newer clock (the universal quantification over the
stored document covers that case), and the sentinel keys are accepted,
their permanent `None` replaced by `Some(v)`. -/
theorem claim_C10 (d : Document α V) (k : Key α) (v : V) :
    Document.get (d.insert_at k v) k = some v ∧
    (d.insert_at k v).content = mapInsert k (some v) d.content ∧
    Document.get (d.insert_at startKey v) startKey = some v ∧
    Document.get (d.insert_at endKey v) endKey = some v :=
  ⟨get_insert_at d k v, rfl, get_insert_at d startKey v, get_insert_at d endKey v⟩

end Claims

end LSeq
